import Mathlib

/-!
# Huffman file encoder (`util.h`): embedding and verified properties

The functions of `util.h` are translated one by one: `buildFrequencyMap`,
`buildEncodingTree`, `_buildEncodingMap`, `buildEncodingMap`, `encode`,
`decode`, and the computation of the output file name in `decompress`.
Pointers to `HuffmanNode` are values of an inductive type with a
`null` constructor; a dereference of `nullptr` and a read of the top of an
empty queue make the embedded function return `none`.

Conventions.
* An `int` has 32 bits. The value an `int` holds after an addition of two
  `int`s, or after a wider value is stored in it, is the mathematical value
  reduced to the range from -2^31 to 2^31 - 1 (`toInt32`), as two's-complement
  machines do (for the addition the C++ standard leaves the overflow
  undefined).
* A `char` is one byte (`Byte`); converting it to `int` follows the signed
  8-bit convention, converting back keeps the low 8 bits.
* Strings of `'0'`/`'1'` are lists of characters, bit streams are lists of
  booleans.
* `std::priority_queue` is the container adaptor of the standard over a vector
  and the two heap algorithms; the algorithms are a parameter (`HeapAlg`)
  constrained by what the standard requires of them (`HeapAlg.Lawful`), so
  that nothing depends on how an implementation orders nodes of equal count.
* The classes declared outside `util.h` (`hashmap`, `ifbitstream`,
  `ofbitstream`) and the constants `PSEUDO_EOF`, `NOT_A_CHAR` are modelled from
  the specification; each such definition says so.
-/

namespace Huffman

/-! ## Symbols and characters -/

/-- Modelled from the spec: the end-of-stream sentinel. The constant is declared
with the bit-stream classes, outside `util.h`; the spec makes the sentinel a
symbol of its own beside the byte values, and 256 is the first integer that
no `char` converts to. -/
def PSEUDO_EOF : Int := 256

/-- Modelled from the spec: the marker carried by internal nodes. The constant
is declared with the bit-stream classes, outside `util.h`; the spec makes it a
symbol distinct from every byte value and from the sentinel. -/
def NOT_A_CHAR : Int := 257

/-- One C++ `char`, as the byte it stores. -/
abbrev Byte := Fin 256

/-- Conversion `char → int` (as in `map.containsKey(c)`, `encodingMap[c]`)
for a signed 8-bit `char`. -/
def charToInt (c : Byte) : Int :=
  if c.val < 128 then (c.val : Int) else (c.val : Int) - 256

/-- Conversion `int → char` (as in `decodedString += encodingTree->character`):
the low 8 bits. -/
def intToChar (i : Int) : Byte :=
  ⟨(i % 256).toNat, by omega⟩

/-- The value of an `int` that receives the mathematical value `x`: `x` itself
when it lies between -2^31 and 2^31 - 1, else `x` reduced modulo 2^32 into that
range. -/
def toInt32 (x : Int) : Int :=
  (x + 2147483648) % 4294967296 - 2147483648

/-! ## The frequency table `hashmapF` -/

/-- Modelled from the spec: the frequency table, a mapping from symbol to
count with unique keys. The `hashmap` class is declared outside `util.h`;
only `containsKey`, `get`, `put` and `keys` are used. The model is an
association list; the order in which `keys` lists the keys is the order of
first insertion (results below that concern a table hold for any order). The
type of the counts is the one of the class: a count is kept as `put` receives
it, and the results that need the counts of a table to be in the range of `int`
say so. -/
abbrev hashmapF := List (Int × Int)

/-- Test `map.containsKey(key)`. -/
def hashmapF.containsKey : hashmapF → Int → Bool
  | [], _ => false
  | (k, _) :: rest, key => if k = key then true else hashmapF.containsKey rest key

/-- Read `map.get(key)`; `util.h` only reads keys that are present (the model
gives 0 for an absent key). -/
def hashmapF.get : hashmapF → Int → Int
  | [], _ => 0
  | (k, v) :: rest, key => if k = key then v else hashmapF.get rest key

/-- Write `map.put(key, value)`: the value of an existing key is replaced, a new
key is added. -/
def hashmapF.put : hashmapF → Int → Int → hashmapF
  | [], key, value => [(key, value)]
  | (k, v) :: rest, key, value =>
    if k = key then (k, value) :: rest else (k, v) :: hashmapF.put rest key value

/-- List `map.keys()`. -/
def hashmapF.keys (map : hashmapF) : List Int :=
  map.map Prod.fst

/-- Function `buildFrequencyMap` (util.h:52). `filename` is the sequence of
characters the loop reads: the content of the file when `isFile`, the string
itself otherwise (both branches run the same loop body). The result is the
final value of the reference parameter `map`. -/
def buildFrequencyMap (filename : List Byte) (map : hashmapF) : hashmapF :=
  let map := filename.foldl (fun map c =>
    if hashmapF.containsKey map (charToInt c) then
      hashmapF.put map (charToInt c) (hashmapF.get map (charToInt c) + 1)
    else
      hashmapF.put map (charToInt c) 1) map
  hashmapF.put map PSEUDO_EOF 1

/-! ## Tree nodes -/

/-- A value of type `HuffmanNode*`: either `nullptr` or the address of a node
with its four fields. Trees are built fresh and never shared, so a pointer is
identified with the tree it points to. -/
inductive HuffmanNode where
  | null : HuffmanNode
  | node (character : Int) (count : Int) (zero : HuffmanNode) (one : HuffmanNode) :
      HuffmanNode
  deriving DecidableEq

/-- Field `count` of an allocated node (0 stands for the undefined read through
`nullptr`, which the queue never holds). -/
def HuffmanNode.count : HuffmanNode → Int
  | .null => 0
  | .node _ count _ _ => count

/-- Field `character` of an allocated node. -/
def HuffmanNode.character : HuffmanNode → Int
  | .null => 0
  | .node character _ _ _ => character

/-- Functor `compare` (util.h:21): `lhs->count > rhs->count`. -/
def compare (lhs rhs : HuffmanNode) : Bool :=
  decide (lhs.count > rhs.count)

/-! ## `std::priority_queue<HuffmanNode*, vector<HuffmanNode*>, compare>` -/

/-- The two heap algorithms of the C++ standard library on which
`std::priority_queue` is defined. The standard fixes what they establish, not
how ties between equal elements are resolved, so they are a parameter. Each
takes the comparison and the underlying vector. -/
structure HeapAlg where
  /-- Algorithm `std::push_heap(c.begin(), c.end(), comp)`. -/
  push_heap : (HuffmanNode → HuffmanNode → Bool) → List HuffmanNode → List HuffmanNode
  /-- Algorithm `std::pop_heap(c.begin(), c.end(), comp)`. -/
  pop_heap : (HuffmanNode → HuffmanNode → Bool) → List HuffmanNode → List HuffmanNode

/-- Predicate `std::is_heap`: no element compares before its parent, the parent
of position `i` being position `(i - 1) / 2`. -/
def IsHeap (comp : HuffmanNode → HuffmanNode → Bool) (v : List HuffmanNode) : Prop :=
  ∀ i p x, 0 < i → v[(i - 1) / 2]? = some p → v[i]? = some x → comp p x = false

/-- What the standard requires of the two heap algorithms, for the comparison
`compare`: `push_heap` turns a heap followed by one element into a heap of the
same elements; `pop_heap` moves the first element of a heap to the back and
leaves a heap of the other elements in front of it. -/
structure HeapAlg.Lawful (H : HeapAlg) : Prop where
  push_heap_spec : ∀ c x, IsHeap compare c →
    IsHeap compare (H.push_heap compare (c ++ [x])) ∧
      (H.push_heap compare (c ++ [x])).Perm (c ++ [x])
  pop_heap_spec : ∀ h t, IsHeap compare (h :: t) →
    ∃ c, H.pop_heap compare (h :: t) = c ++ [h] ∧ c.Perm t ∧ IsHeap compare c

/-- The state of the priority queue: its underlying vector. -/
abbrev priority_queue := List HuffmanNode

/-- Member `pq.push(x)`: `c.push_back(x); push_heap(c.begin(), c.end(), comp)`. -/
def priority_queue.push (H : HeapAlg) (pq : priority_queue) (x : HuffmanNode) :
    priority_queue :=
  H.push_heap compare (pq ++ [x])

/-- Member `pq.top()`: `c.front()`; undefined (`none`) on an empty queue. -/
def priority_queue.top (pq : priority_queue) : Option HuffmanNode :=
  pq.head?

/-- Member `pq.pop()`: `pop_heap(c.begin(), c.end(), comp); c.pop_back()`. -/
def priority_queue.pop (H : HeapAlg) (pq : priority_queue) : priority_queue :=
  (H.pop_heap compare pq).dropLast

/-- Member `pq.size()`. -/
def priority_queue.size (pq : priority_queue) : Nat :=
  pq.length

/-- A heap implementation for running the embedding: both algorithms sort the
live part of the vector by ascending count (a sorted vector is a heap). -/
def sortingHeap : HeapAlg where
  push_heap := fun comp c => c.insertionSort (fun a b => comp a b = false)
  pop_heap := fun comp c =>
    match c with
    | [] => []
    | h :: t => t.insertionSort (fun a b => comp a b = false) ++ [h]

/-! ## `buildEncodingTree` -/

/-- The `while (pq.size() > 1)` loop of `buildEncodingTree` (util.h:105). The
first argument bounds the number of iterations; `none` is returned when the bound
is reached or when `top` is read on an empty queue. -/
def mergeLoop (H : HeapAlg) : Nat → priority_queue → Option priority_queue
  | 0, pq => if priority_queue.size pq > 1 then none else some pq
  | fuel + 1, pq =>
    if priority_queue.size pq > 1 then
      match priority_queue.top pq with
      | none => none
      | some zero =>
        let pq1 := priority_queue.pop H pq
        match priority_queue.top pq1 with
        | none => none
        | some one =>
          let pq2 := priority_queue.pop H pq1
          let newNode := HuffmanNode.node NOT_A_CHAR (toInt32 (zero.count + one.count)) zero one
          mergeLoop H fuel (priority_queue.push H pq2 newNode)
    else some pq

/-- The first loop of `buildEncodingTree` (util.h:93): one leaf per key, pushed
in the order of `map.keys()`. -/
def seedQueue (H : HeapAlg) (map : hashmapF) : priority_queue :=
  (hashmapF.keys map).foldl (fun pq key =>
    priority_queue.push H pq (HuffmanNode.node key (hashmapF.get map key) .null .null)) []

/-- Function `buildEncodingTree` (util.h:87). The merge loop runs at most
`pq.size()` times. `none` stands for undefined behaviour: `pq.top()` on an empty
queue. -/
def buildEncodingTree (H : HeapAlg) (map : hashmapF) : Option HuffmanNode :=
  let pq := seedQueue H map
  match mergeLoop H (priority_queue.size pq) pq with
  | none => none
  | some pq => priority_queue.top pq

/-! ## The code table `hashmapE` and `buildEncodingMap` -/

/-- The code table `unordered_map<int, string>`, as an association list with
unique keys. -/
abbrev hashmapE := List (Int × List Char)

/-- Lookup `encodingMap.find(key)`. -/
def hashmapE.find : hashmapE → Int → Option (List Char)
  | [], _ => none
  | (k, v) :: rest, key => if k = key then some v else hashmapE.find rest key

/-- Read `encodingMap[key]`: the stored string, the empty string for a key that
is absent. -/
def hashmapE.index (encodingMap : hashmapE) (key : Int) : List Char :=
  (hashmapE.find encodingMap key).getD []

/-- Assignment `encodingMap[key] = str`. -/
def hashmapE.assign : hashmapE → Int → List Char → hashmapE
  | [], key, str => [(key, str)]
  | (k, v) :: rest, key, str =>
    if k = key then (k, str) :: rest else (k, v) :: hashmapE.assign rest key str

/-- Function `_buildEncodingMap` (util.h:132); the parameter `prev` is never
read and is left out. The result is the final value of the reference parameter
`encodingMap`; `none` stands for a dereference of `nullptr`. -/
def _buildEncodingMap : HuffmanNode → hashmapE → List Char → Option hashmapE
  | .null, _, _ => none
  | .node character _ zero one, encodingMap, str =>
    if character ≠ NOT_A_CHAR then
      some (hashmapE.assign encodingMap character str)
    else
      let str1 := str ++ ['0']
      match _buildEncodingMap zero encodingMap str1 with
      | none => none
      | some encodingMap1 =>
        let str2 := str1.dropLast
        let str3 := str2 ++ ['1']
        _buildEncodingMap one encodingMap1 str3

/-- Function `buildEncodingMap` (util.h:157). -/
def buildEncodingMap (tree : HuffmanNode) : Option hashmapE :=
  if tree ≠ .null then _buildEncodingMap tree [] [] else some []

/-! ## `encode` -/

/-- What `encode` leaves behind: the returned string, the value stored in
`size`, and the bits written to `output`. -/
structure EncodeResult where
  binary : List Char
  size : Int
  output : List Bool
  deriving DecidableEq

/-- Function `encode` (util.h:184); `input` is the sequence of characters the
stream delivers. -/
def encode (input : List Byte) (encodingMap : hashmapE) (makeFile : Bool) : EncodeResult :=
  let binary := input.foldl
    (fun binary c => binary ++ hashmapE.index encodingMap (charToInt c)) []
  let binary := binary ++ hashmapE.index encodingMap PSEUDO_EOF
  { binary := binary
    size := toInt32 (binary.length : Int)
    output := if makeFile then binary.map (fun i => if i = '0' then false else true) else [] }

/-! ## `decode` -/

/-- Modelled from the spec: the bit source `ifbitstream` is declared outside
`util.h`. Following the spec, it delivers its bits one at a time and `eof()`
holds exactly when it is exhausted: the source is the list of bits still
unread, and `readBit` yields 1 or 0. -/
def readBit (bit : Bool) : Int :=
  if bit then 1 else 0

/-- The state in which the loop of `decode` is left. -/
structure DecodeRun where
  /-- The symbols appended to `decodedString`, before their conversion to `char`. -/
  decodedString : List Int
  /-- The bits left unread. -/
  input : List Bool
  /-- Whether the loop was left through `break`, on the sentinel. -/
  atSentinel : Bool
  deriving DecidableEq

/-- The `while (!input.eof())` loop of `decode` (util.h:227). `root` is the root,
the third argument the cursor `encodingTree`. `none` stands for a dereference of
`nullptr`. -/
def decodeLoop (root : HuffmanNode) : List Bool → HuffmanNode → List Int → Option DecodeRun
  | [], _, decodedString => some ⟨decodedString, [], false⟩
  | b :: input, encodingTree, decodedString =>
    match encodingTree with
    | .null => none
    | .node _ _ zero one =>
      let bit := readBit b
      let next := if bit = 1 then one else zero
      match next with
      | .null => none
      | .node character _ _ _ =>
        if character = PSEUDO_EOF then some ⟨decodedString, input, true⟩
        else if character ≠ NOT_A_CHAR then
          decodeLoop root input root (decodedString ++ [character])
        else decodeLoop root input next decodedString

/-- The symbols `decode` appends, in order. -/
def decodeSymbols (input : List Bool) (encodingTree : HuffmanNode) : Option (List Int) :=
  (decodeLoop encodingTree input encodingTree []).map DecodeRun.decodedString

/-- Function `decode` (util.h:221): the returned string. -/
def decode (input : List Bool) (encodingTree : HuffmanNode) : Option (List Byte) :=
  (decodeSymbols input encodingTree).map (List.map intToChar)

/-! ## Notions used to state the properties -/

/-- One iteration of the counting loop of `buildFrequencyMap`. -/
def countStep (map : hashmapF) (c : Byte) : hashmapF :=
  if hashmapF.containsKey map (charToInt c) then
    hashmapF.put map (charToInt c) (hashmapF.get map (charToInt c) + 1)
  else
    hashmapF.put map (charToInt c) 1

/-- Test `node == nullptr`. -/
def HuffmanNode.isNull : HuffmanNode → Bool
  | .null => true
  | .node _ _ _ _ => false

/-- The leaves of a tree, left to right, as (symbol, count) pairs; a leaf is a
node both of whose children are `nullptr`. -/
def HuffmanNode.leaves : HuffmanNode → List (Int × Int)
  | .null => []
  | .node character count zero one =>
    if zero.isNull && one.isNull then [(character, count)]
    else zero.leaves ++ one.leaves

/-- A full tree: every node is a leaf without children, or carries `NOT_A_CHAR`,
has two children, both full trees, and a count that is the `int` sum of
theirs. -/
def HuffmanNode.Full : HuffmanNode → Prop
  | .null => False
  | .node character count zero one =>
    (zero = .null ∧ one = .null) ∨
      (character = NOT_A_CHAR ∧ count = toInt32 (zero.count + one.count) ∧
        zero.Full ∧ one.Full)

/-- A tree in which no sum of counts left the range of `int`: every node with
children holds the true sum of the counts of its two children. -/
def HuffmanNode.Exact : HuffmanNode → Prop
  | .null => False
  | .node _ count zero one =>
    (zero = .null ∧ one = .null) ∨
      (count = zero.count + one.count ∧ zero.Exact ∧ one.Exact)

/-- Sum over the leaves below a node standing at depth `d` of count times
depth. -/
def HuffmanNode.costAt : Nat → HuffmanNode → Int
  | _, .null => 0
  | d, .node _ count zero one =>
    if zero.isNull && one.isNull then count * (d : Int)
    else zero.costAt (d + 1) + one.costAt (d + 1)

/-- Weighted path length of a tree: the sum over its leaves of count times
depth, the root standing at depth 0. -/
def HuffmanNode.cost (t : HuffmanNode) : Int :=
  t.costAt 0

/-- The leaf `buildEncodingTree` allocates for one key of the table. -/
def leafOf (map : hashmapF) (key : Int) : HuffmanNode :=
  .node key (hashmapF.get map key) .null .null

/-- The merge process seen from outside the queue: from a collection of trees,
two of least count are taken out (the first taken has the lesser count), joined
under a new node whose count is the `int` sum of theirs, and the node is put
back, until one tree is left. -/
inductive Merged : List HuffmanNode → HuffmanNode → Prop
  | done (r : HuffmanNode) : Merged [r] r
  | step (pq : List HuffmanNode) (a b : HuffmanNode) (rest : List HuffmanNode)
      (r : HuffmanNode) :
      pq.Perm (a :: b :: rest) → a.count ≤ b.count → (∀ x ∈ rest, b.count ≤ x.count) →
      Merged (.node NOT_A_CHAR (toInt32 (a.count + b.count)) a b :: rest) r → Merged pq r

/-- The root-to-leaf paths of a tree, one (symbol, path) pair per leaf from left
to right, a path being written with `'0'` for a step to the zero child and `'1'`
for a step to the one child. -/
def HuffmanNode.paths : HuffmanNode → List (Int × List Char)
  | .null => []
  | .node character _ zero one =>
    if zero.isNull && one.isNull then [(character, [])]
    else zero.paths.map (fun e => (e.1, '0' :: e.2)) ++
      one.paths.map (fun e => (e.1, '1' :: e.2))

/-- The bits `encode` writes for a string of `'0'` and `'1'`. -/
def bitsOf (binary : List Char) : List Bool :=
  binary.map (fun i => if i = '0' then false else true)

/-- Whether a node is a leaf: allocated, with both children `nullptr`. -/
def HuffmanNode.isLeaf : HuffmanNode → Bool
  | .null => false
  | .node _ _ zero one => zero.isNull && one.isNull

/-! ## Weighted binary trees, for the comparison with any other tree -/

/-- A binary tree in which every inner node has two children and every leaf
carries a count: the shape of a code, without the symbols. -/
inductive WTree where
  | leaf (w : Int) : WTree
  | node (l r : WTree) : WTree

/-- The counts at the leaves, left to right. -/
def WTree.weights : WTree → List Int
  | .leaf w => [w]
  | .node l r => l.weights ++ r.weights

/-- Sum over the leaves below a node standing at depth `d` of count times
depth. -/
def WTree.costAt : Nat → WTree → Int
  | d, .leaf w => w * (d : Int)
  | d, .node l r => l.costAt (d + 1) + r.costAt (d + 1)

/-- Length of the longest path from the root to a leaf. -/
def WTree.height : WTree → Nat
  | .leaf _ => 0
  | .node l r => max l.height r.height + 1

/-- The count at the leaf reached by a path (`false` for the left child, `true`
for the right child), when the path ends on a leaf. -/
def WTree.leafAt : WTree → List Bool → Option Int
  | .leaf w, [] => some w
  | .leaf _, _ :: _ => none
  | .node _ _, [] => none
  | .node l _, false :: p => l.leafAt p
  | .node _ r, true :: p => r.leafAt p

/-- The tree with the count at the end of a path replaced. -/
def WTree.setLeaf : WTree → List Bool → Int → WTree
  | .leaf _, [], w => .leaf w
  | .leaf v, _ :: _, _ => .leaf v
  | .node l r, [], _ => .node l r
  | .node l r, false :: p, w => .node (l.setLeaf p w) r
  | .node l r, true :: p, w => .node l (r.setLeaf p w)

/-- The tree in which the node at the end of a path, when its two children are
leaves, is replaced by one leaf carrying the sum of their counts. -/
def WTree.mergeAt : WTree → List Bool → WTree
  | .leaf w, _ => .leaf w
  | .node l r, [] =>
    match l, r with
    | .leaf x, .leaf y => .leaf (x + y)
    | _, _ => .node l r
  | .node l r, false :: p => .node (l.mergeAt p) r
  | .node l r, true :: p => .node l (r.mergeAt p)

/-! ## Further notions: nodes of a tree, shape, the output file name -/

/-- The nodes of a tree, each given with the subtree below it, root first. -/
def HuffmanNode.subtrees : HuffmanNode → List HuffmanNode
  | .null => []
  | .node character count zero one =>
    .node character count zero one :: (zero.subtrees ++ one.subtrees)

/-- The shape of a tree of the data model, counts left aside: every node is a
leaf without children or carries `NOT_A_CHAR` and has two children of that
shape. -/
def HuffmanNode.FullShape : HuffmanNode → Prop
  | .null => False
  | .node character _ zero one =>
    (zero = .null ∧ one = .null) ∨
      (character = NOT_A_CHAR ∧ zero.FullShape ∧ one.FullShape)

/-- Member `std::string::find(ch)`: the position of the first occurrence of
`ch`; `none` stands for `npos`. -/
def string_find : List Char → Char → Option Nat
  | [], _ => none
  | a :: s, ch => if a = ch then some 0 else (string_find s ch).map (fun i => i + 1)

/-- Member `std::string::erase(pos, len)`: `len` characters are removed from
position `pos` on, all that remain when there are fewer; the call throws
`out_of_range` (`none`) when `pos` is past the end, as `npos` always is. -/
def string_erase (s : List Char) (pos : Option Nat) (len : Nat) : Option (List Char) :=
  match pos with
  | none => none
  | some pos => if pos ≤ s.length then some (s.take pos ++ s.drop (pos + len)) else none

/-- The name of the file `decompress` writes to (util.h:302-306):
`filename.erase(filename.find('.'), filename.length())`, then
`filename + "_unc.txt"`. -/
def decompress_outputName (filename : List Char) : Option (List Char) :=
  (string_erase filename (string_find filename '.') filename.length).map
    (fun name => name ++ ['_', 'u', 'n', 'c', '.', 't', 'x', 't'])

/-- The values the loop of `decode` gives to the cursor `encodingTree` by
`encodingTree = encodingTree->one` and `encodingTree = encodingTree->zero`, in
order, up to the end of the loop or to the first `nullptr` (whose symbol the
next statement reads). -/
def cursorMoves (root : HuffmanNode) : List Bool → HuffmanNode → List HuffmanNode
  | [], _ => []
  | b :: input, encodingTree =>
    match encodingTree with
    | .null => []
    | .node _ _ zero one =>
      let bit := readBit b
      let next := if bit = 1 then one else zero
      match next with
      | .null => [.null]
      | .node character _ _ _ =>
        if character = PSEUDO_EOF then [next]
        else if character ≠ NOT_A_CHAR then next :: cursorMoves root input root
        else next :: cursorMoves root input next


/-! ## Frequency table: basic facts -/

theorem hashmapF.get_put (m : hashmapF) (k v k' : Int) :
    hashmapF.get (hashmapF.put m k v) k' = if k = k' then v else hashmapF.get m k' := by
  induction m with
  | nil => simp [hashmapF.put, hashmapF.get]
  | cons e rest ih =>
    obtain ⟨a, b⟩ := e
    by_cases h : a = k
    · subst h
      by_cases h' : a = k' <;> simp [hashmapF.put, hashmapF.get, h']
    · by_cases h' : a = k'
      · subst h'
        simp [hashmapF.put, hashmapF.get, h, Ne.symm h]
      · simp [hashmapF.put, hashmapF.get, h, h', ih]

theorem hashmapF.mem_keys_put (m : hashmapF) (k v k' : Int) :
    k' ∈ hashmapF.keys (hashmapF.put m k v) ↔ k' = k ∨ k' ∈ hashmapF.keys m := by
  induction m with
  | nil => simp [hashmapF.put, hashmapF.keys]
  | cons e rest ih =>
    obtain ⟨a, b⟩ := e
    by_cases h : a = k
    · subst h
      simp [hashmapF.put, hashmapF.keys]
    · simp only [hashmapF.keys] at ih
      simp [hashmapF.put, hashmapF.keys, h, ih]
      tauto

theorem hashmapF.nodup_keys_put (m : hashmapF) (k v : Int)
    (h : (hashmapF.keys m).Nodup) : (hashmapF.keys (hashmapF.put m k v)).Nodup := by
  induction m with
  | nil => simp [hashmapF.put, hashmapF.keys]
  | cons e rest ih =>
    obtain ⟨a, b⟩ := e
    by_cases hk : a = k
    · subst hk
      simpa [hashmapF.put, hashmapF.keys] using h
    · have h' : a ∉ hashmapF.keys rest ∧ (hashmapF.keys rest).Nodup := by
        simpa [hashmapF.keys] using h
      have hput : hashmapF.put ((a, b) :: rest) k v = (a, b) :: hashmapF.put rest k v := by
        simp [hashmapF.put, hk]
      rw [hput]
      have hmem := hashmapF.mem_keys_put rest k v a
      have : a ∉ hashmapF.keys (hashmapF.put rest k v) := by
        rw [hmem]; tauto
      have ih' := ih h'.2
      simp only [hashmapF.keys] at this ih' ⊢
      simp [this, ih']

theorem hashmapF.get_of_not_containsKey (m : hashmapF) (k : Int)
    (h : hashmapF.containsKey m k = false) : hashmapF.get m k = 0 := by
  induction m with
  | nil => rfl
  | cons e rest ih =>
    obtain ⟨a, b⟩ := e
    by_cases hk : a = k
    · simp [hashmapF.containsKey, hk] at h
    · simp only [hashmapF.containsKey, hk, if_false] at h
      simp [hashmapF.get, hk, ih h]

theorem hashmapF.sum_put (m : hashmapF) (k v : Int) :
    ((hashmapF.put m k v).map Prod.snd).sum = (m.map Prod.snd).sum - hashmapF.get m k + v := by
  induction m with
  | nil => simp [hashmapF.put, hashmapF.get]
  | cons e rest ih =>
    obtain ⟨a, b⟩ := e
    by_cases hk : a = k
    · simp [hashmapF.put, hashmapF.get, hk]; ring
    · simp [hashmapF.put, hashmapF.get, hk, ih]; ring

theorem charToInt_injective : Function.Injective charToInt := by
  intro a b h
  unfold charToInt at h
  apply Fin.ext
  have ha := a.isLt
  have hb := b.isLt
  split_ifs at h <;> omega

theorem charToInt_ne_PSEUDO_EOF (c : Byte) : charToInt c ≠ PSEUDO_EOF := by
  have hc := c.isLt
  unfold charToInt PSEUDO_EOF
  split_ifs <;> omega

theorem charToInt_ne_NOT_A_CHAR (c : Byte) : charToInt c ≠ NOT_A_CHAR := by
  have hc := c.isLt
  unfold charToInt NOT_A_CHAR
  split_ifs <;> omega

theorem intToChar_charToInt (c : Byte) : intToChar (charToInt c) = c := by
  have hc := c.isLt
  apply Fin.ext
  unfold intToChar charToInt
  simp only
  split_ifs <;> omega

theorem countStep_eq (m : hashmapF) (c : Byte) :
    countStep m c = hashmapF.put m (charToInt c) (hashmapF.get m (charToInt c) + 1) := by
  unfold countStep
  by_cases h : hashmapF.containsKey m (charToInt c) = true
  · simp [h]
  · have h' : hashmapF.containsKey m (charToInt c) = false := by simpa using h
    simp [h', hashmapF.get_of_not_containsKey m _ h']

theorem countLoop_spec (S : List Byte) (m : hashmapF) (hm : (hashmapF.keys m).Nodup) :
    (hashmapF.keys (S.foldl countStep m)).Nodup ∧
    (∀ k, k ∈ hashmapF.keys (S.foldl countStep m) ↔
      k ∈ hashmapF.keys m ∨ ∃ c ∈ S, charToInt c = k) ∧
    (∀ c : Byte, hashmapF.get (S.foldl countStep m) (charToInt c) =
      hashmapF.get m (charToInt c) + (S.count c : Int)) ∧
    hashmapF.get (S.foldl countStep m) PSEUDO_EOF = hashmapF.get m PSEUDO_EOF ∧
    ((S.foldl countStep m).map Prod.snd).sum = (m.map Prod.snd).sum + (S.length : Int) := by
  induction S generalizing m with
  | nil => simpa using hm
  | cons d S ih =>
    have hstep := countStep_eq m d
    have hnd : (hashmapF.keys (countStep m d)).Nodup := by
      rw [hstep]; exact hashmapF.nodup_keys_put m _ _ hm
    obtain ⟨h1, h2, h3, h4, h5⟩ := ih (countStep m d) hnd
    simp only [List.foldl_cons]
    refine ⟨h1, ?_, ?_, ?_, ?_⟩
    · intro k
      rw [h2 k, hstep, hashmapF.mem_keys_put]
      constructor
      · rintro ((h | h) | ⟨c, hc, rfl⟩)
        · exact Or.inr ⟨d, by simp, h.symm⟩
        · exact Or.inl h
        · exact Or.inr ⟨c, by simp [hc], rfl⟩
      · rintro (h | ⟨c, hc, rfl⟩)
        · exact Or.inl (Or.inr h)
        · rcases List.mem_cons.mp hc with rfl | hc
          · exact Or.inl (Or.inl rfl)
          · exact Or.inr ⟨c, hc, rfl⟩
    · intro c
      rw [h3 c, hstep, hashmapF.get_put]
      by_cases hdc : d = c
      · subst hdc
        simp [List.count_cons]
        ring
      · have hne : charToInt d ≠ charToInt c := fun h => hdc (charToInt_injective h)
        simp [List.count_cons, hne, hdc]
    · rw [h4, hstep, hashmapF.get_put]
      simp [charToInt_ne_PSEUDO_EOF]
    · rw [h5, hstep, hashmapF.sum_put]
      simp
      ring

theorem buildFrequencyMap_eq (S : List Byte) (m : hashmapF) :
    buildFrequencyMap S m = hashmapF.put (S.foldl countStep m) PSEUDO_EOF 1 := rfl


/-! ## The priority queue -/

theorem compare_eq_false_iff (a b : HuffmanNode) :
    compare a b = false ↔ a.count ≤ b.count := by
  simp [compare]

/-- The first element of a heap has the least count. -/
theorem IsHeap.head_le {v : List HuffmanNode} (hv : IsHeap compare v) (h : HuffmanNode)
    (h0 : v[0]? = some h) : ∀ (i : Nat) (x : HuffmanNode), v[i]? = some x → h.count ≤ x.count := by
  intro i
  induction i using Nat.strong_induction_on with
  | _ i ih =>
    intro x hx
    rcases Nat.eq_zero_or_pos i with rfl | hpos
    · rw [h0] at hx
      cases hx
      exact le_refl _
    · have hlt : (i - 1) / 2 < i := by omega
      have hi : i < v.length := by
        by_contra hcon
        rw [List.getElem?_eq_none (by omega)] at hx
        cases hx
      have hp : (i - 1) / 2 < v.length := by omega
      have hpe : v[(i - 1) / 2]? = some v[(i - 1) / 2] := List.getElem?_eq_getElem hp
      have h1 := ih _ hlt _ hpe
      have h2 := (compare_eq_false_iff _ _).mp (hv i _ x hpos hpe hx)
      exact le_trans h1 h2

theorem IsHeap.head_le_mem {h : HuffmanNode} {t : List HuffmanNode}
    (hv : IsHeap compare (h :: t)) : ∀ x ∈ t, h.count ≤ x.count := by
  intro x hx
  obtain ⟨i, hi, rfl⟩ := List.getElem_of_mem hx
  exact hv.head_le h (by simp) (i + 1) _ (by simp [hi])

theorem IsHeap.nil : IsHeap compare [] := by
  intro i p x _ _ hx
  simp at hx

/-- A vector sorted by ascending count is a heap. -/
theorem IsHeap.of_sorted {v : List HuffmanNode}
    (hs : v.Pairwise (fun a b => compare a b = false)) : IsHeap compare v := by
  intro i p x hpos hp hx
  have hi : i < v.length := by
    by_contra hcon
    rw [List.getElem?_eq_none (by omega)] at hx
    cases hx
  have hlt : (i - 1) / 2 < i := by omega
  have hpl : (i - 1) / 2 < v.length := by omega
  rw [List.getElem?_eq_getElem hi] at hx
  rw [List.getElem?_eq_getElem hpl] at hp
  cases hx
  cases hp
  exact List.pairwise_iff_getElem.mp hs _ _ hpl hi hlt

theorem sorted_insertionSort_compare (v : List HuffmanNode) :
    (v.insertionSort (fun a b => compare a b = false)).Pairwise
      (fun a b => compare a b = false) := by
  have htot : IsTotal HuffmanNode (fun a b => compare a b = false) :=
    ⟨fun a b => by
      simp only [compare_eq_false_iff]
      exact le_total _ _⟩
  have htr : IsTrans HuffmanNode (fun a b => compare a b = false) :=
    ⟨fun a b c hab hbc => by
      simp only [compare_eq_false_iff] at *
      exact le_trans hab hbc⟩
  exact List.sorted_insertionSort (fun a b => compare a b = false) v

/-- The sorting implementation meets the requirements on the heap algorithms. -/
theorem sortingHeap_lawful : sortingHeap.Lawful := by
  constructor
  · intro v x _
    exact ⟨IsHeap.of_sorted (sorted_insertionSort_compare _), List.perm_insertionSort _ _⟩
  · intro h t _
    exact ⟨_, rfl, List.perm_insertionSort _ _,
      IsHeap.of_sorted (sorted_insertionSort_compare _)⟩

theorem priority_queue.push_spec {H : HeapAlg} (hH : H.Lawful) (pq : priority_queue)
    (x : HuffmanNode) (hpq : IsHeap compare pq) :
    IsHeap compare (priority_queue.push H pq x) ∧
      (priority_queue.push H pq x).Perm (x :: pq) := by
  obtain ⟨h1, h2⟩ := hH.push_heap_spec pq x hpq
  refine ⟨h1, h2.trans ?_⟩
  simp

theorem priority_queue.pop_spec {H : HeapAlg} (hH : H.Lawful) (h : HuffmanNode)
    (t : List HuffmanNode) (hpq : IsHeap compare (h :: t)) :
    IsHeap compare (priority_queue.pop H (h :: t)) ∧
      (priority_queue.pop H (h :: t)).Perm t := by
  obtain ⟨v, hv, hperm, hheap⟩ := hH.pop_heap_spec h t hpq
  have : priority_queue.pop H (h :: t) = v := by
    simp [priority_queue.pop, hv]
  rw [this]
  exact ⟨hheap, hperm⟩

/-- One iteration of the merge loop on a lawful queue: the two nodes taken out
have the least counts, and the queue afterwards holds the new node and the
remaining ones. -/
theorem mergeStep_spec {H : HeapAlg} (hH : H.Lawful) (pq : priority_queue)
    (hpq : IsHeap compare pq) (hlen : 1 < pq.length) :
    ∃ a b rest, priority_queue.top pq = some a ∧
      priority_queue.top (priority_queue.pop H pq) = some b ∧
      pq.Perm (a :: b :: rest) ∧ a.count ≤ b.count ∧ (∀ x ∈ rest, b.count ≤ x.count) ∧
      IsHeap compare (priority_queue.push H
        (priority_queue.pop H (priority_queue.pop H pq))
        (.node NOT_A_CHAR (toInt32 (a.count + b.count)) a b)) ∧
      (priority_queue.push H (priority_queue.pop H (priority_queue.pop H pq))
        (.node NOT_A_CHAR (toInt32 (a.count + b.count)) a b)).Perm
        (.node NOT_A_CHAR (toInt32 (a.count + b.count)) a b :: rest) := by
  match pq, hpq, hlen with
  | a :: t, hpq, hlen =>
    obtain ⟨hh1, hp1⟩ := priority_queue.pop_spec hH a t hpq
    have hlen1 : (priority_queue.pop H (a :: t)).length = t.length := hp1.length_eq
    have ht : 0 < t.length := by simpa using hlen
    generalize hq1 : priority_queue.pop H (a :: t) = q1 at hh1 hp1 hlen1
    match q1, hh1, hp1, hlen1 with
    | [], _, _, hl => simp at hl; omega
    | b :: t1, hh1, hp1, _ =>
      obtain ⟨hh2, hp2⟩ := priority_queue.pop_spec hH b t1 hh1
      have hbt : b ∈ t := hp1.subset (by simp)
      obtain ⟨hh3, hp3⟩ := priority_queue.push_spec hH (priority_queue.pop H (b :: t1))
        (.node NOT_A_CHAR (toInt32 (a.count + b.count)) a b) hh2
      refine ⟨a, b, t1, rfl, rfl, ?_, hpq.head_le_mem b hbt, hh1.head_le_mem, hh3, ?_⟩
      · exact List.Perm.cons a hp1.symm
      · exact hp3.trans (List.Perm.cons _ hp2)

theorem Merged.perm {pq pq' : List HuffmanNode} {r : HuffmanNode} (h : Merged pq r)
    (hp : pq'.Perm pq) : Merged pq' r := by
  cases h with
  | done =>
    rw [List.perm_singleton.mp hp]
    exact Merged.done r
  | step _ a b rest _ hperm hab hrest hm =>
    exact Merged.step pq' a b rest r (hp.trans hperm) hab hrest hm

/-- On a lawful queue the merge loop ends with one node in the queue, reached
by the merge process; the bound on the iterations is not met. -/
theorem mergeLoop_spec {H : HeapAlg} (hH : H.Lawful) (fuel : Nat) (pq : priority_queue)
    (hpq : IsHeap compare pq) (hne : pq ≠ []) (hfuel : pq.length ≤ fuel + 1) :
    ∃ r, mergeLoop H fuel pq = some [r] ∧ Merged pq r := by
  induction fuel generalizing pq with
  | zero =>
    match pq, hne, hfuel with
    | [r], _, _ => exact ⟨r, by simp [mergeLoop, priority_queue.size], Merged.done r⟩
    | _ :: _ :: _, _, hf => simp at hf
  | succ fuel ih =>
    by_cases hlen : 1 < pq.length
    · obtain ⟨a, b, rest, ha, hb, hperm, hab, hrest, hheap, hperm'⟩ :=
        mergeStep_spec hH pq hpq hlen
      have hne' : priority_queue.push H (priority_queue.pop H (priority_queue.pop H pq))
          (.node NOT_A_CHAR (toInt32 (a.count + b.count)) a b) ≠ [] := by
        intro h0
        rw [h0] at hperm'
        simpa using hperm'.length_eq
      have hl' : (priority_queue.push H (priority_queue.pop H (priority_queue.pop H pq))
          (.node NOT_A_CHAR (toInt32 (a.count + b.count)) a b)).length ≤ fuel + 1 := by
        have h1 := hperm'.length_eq
        have h2 := hperm.length_eq
        simp only [List.length_cons] at h1 h2
        omega
      obtain ⟨r, hr, hm⟩ := ih _ hheap hne' hl'
      refine ⟨r, ?_, Merged.step pq a b rest r hperm hab hrest (hm.perm hperm'.symm)⟩
      rw [mergeLoop]
      simp only [priority_queue.size, hlen, if_true, ha, hb]
      exact hr
    · match pq, hne, hlen with
      | [r], _, _ => exact ⟨r, by simp [mergeLoop, priority_queue.size], Merged.done r⟩
      | _ :: _ :: _, _, hl => simp at hl

theorem seedQueue_spec {H : HeapAlg} (hH : H.Lawful) (map : hashmapF) :
    IsHeap compare (seedQueue H map) ∧
      (seedQueue H map).Perm ((hashmapF.keys map).map (leafOf map)) := by
  have key : ∀ (ks : List Int) (pq : priority_queue), IsHeap compare pq →
      IsHeap compare (ks.foldl (fun pq key => priority_queue.push H pq (leafOf map key)) pq) ∧
      (ks.foldl (fun pq key => priority_queue.push H pq (leafOf map key)) pq).Perm
        (pq ++ ks.map (leafOf map)) := by
    intro ks
    induction ks with
    | nil => intro pq hpq; simpa using hpq
    | cons k ks ih =>
      intro pq hpq
      obtain ⟨h1, h2⟩ := priority_queue.push_spec hH pq (leafOf map k) hpq
      obtain ⟨h3, h4⟩ := ih _ h1
      refine ⟨h3, h4.trans ?_⟩
      have : (priority_queue.push H pq (leafOf map k) ++ ks.map (leafOf map)).Perm
          ((leafOf map k :: pq) ++ ks.map (leafOf map)) := List.Perm.append_right _ h2
      refine this.trans ?_
      simp only [List.map_cons, List.cons_append]
      exact (List.perm_middle).symm
  have := key (hashmapF.keys map) [] IsHeap.nil
  simpa [seedQueue, leafOf] using this

/-- For a table that is not empty, `buildEncodingTree` returns a tree, reached by
the merge process from the leaves of the table. -/
theorem buildEncodingTree_merged {H : HeapAlg} (hH : H.Lawful) (map : hashmapF)
    (hne : map ≠ []) :
    ∃ r, buildEncodingTree H map = some r ∧
      Merged ((hashmapF.keys map).map (leafOf map)) r := by
  obtain ⟨hheap, hperm⟩ := seedQueue_spec hH map
  have hlen : (seedQueue H map).length = map.length := by
    simpa [hashmapF.keys] using hperm.length_eq
  have hne' : seedQueue H map ≠ [] := by
    intro h0
    rw [h0] at hlen
    exact hne (List.length_eq_zero.mp hlen.symm)
  obtain ⟨r, hr, hm⟩ := mergeLoop_spec hH (seedQueue H map).length (seedQueue H map) hheap hne'
    (Nat.le_succ _)
  refine ⟨r, ?_, hm.perm hperm.symm⟩
  simp [buildEncodingTree, priority_queue.size, hr, priority_queue.top]


/-! ## What the merge process preserves -/

theorem HuffmanNode.Full.ne_null {t : HuffmanNode} (h : t.Full) : t.isNull = false := by
  cases t with
  | null => exact absurd h (by simp [HuffmanNode.Full])
  | node _ _ _ _ => rfl

theorem leafOf_full (map : hashmapF) (key : Int) : (leafOf map key).Full := by
  simp [leafOf, HuffmanNode.Full]

theorem leaves_join (c n : Int) {a b : HuffmanNode} (ha : a.Full) :
    (HuffmanNode.node c n a b).leaves = a.leaves ++ b.leaves := by
  simp [HuffmanNode.leaves, ha.ne_null]

theorem full_join {a b : HuffmanNode} (ha : a.Full) (hb : b.Full) :
    (HuffmanNode.node NOT_A_CHAR (toInt32 (a.count + b.count)) a b).Full := by
  unfold HuffmanNode.Full
  exact Or.inr ⟨rfl, rfl, ha, hb⟩

theorem Merged.full {pq : List HuffmanNode} {r : HuffmanNode} (h : Merged pq r)
    (hpq : ∀ t ∈ pq, t.Full) : r.Full := by
  induction h with
  | done r => exact hpq r (by simp)
  | step pq a b rest r hperm _ _ _ ih =>
    have ha : a.Full := hpq a (hperm.symm.subset (by simp))
    have hb : b.Full := hpq b (hperm.symm.subset (by simp))
    apply ih
    intro t ht
    rcases List.mem_cons.mp ht with rfl | ht
    · exact full_join ha hb
    · exact hpq t (hperm.symm.subset (by simp [ht]))

theorem Merged.leaves_perm {pq : List HuffmanNode} {r : HuffmanNode} (h : Merged pq r)
    (hpq : ∀ t ∈ pq, t.Full) : r.leaves.Perm (pq.flatMap HuffmanNode.leaves) := by
  induction h with
  | done r => simp
  | step pq a b rest r hperm _ _ _ ih =>
    have ha : a.Full := hpq a (hperm.symm.subset (by simp))
    have hb : b.Full := hpq b (hperm.symm.subset (by simp))
    have hfull : ∀ t ∈ HuffmanNode.node NOT_A_CHAR (toInt32 (a.count + b.count)) a b :: rest, t.Full := by
      intro t ht
      rcases List.mem_cons.mp ht with rfl | ht
      · exact full_join ha hb
      · exact hpq t (hperm.symm.subset (by simp [ht]))
    refine (ih hfull).trans ?_
    refine List.Perm.trans ?_ (List.Perm.flatMap_right HuffmanNode.leaves hperm).symm
    simp [List.flatMap_cons, leaves_join _ _ ha]

theorem toInt32_of_range {x : Int} (h1 : -2147483648 ≤ x) (h2 : x < 2147483648) :
    toInt32 x = x := by
  unfold toInt32
  omega

theorem toInt32_range (x : Int) : -2147483648 ≤ toInt32 x ∧ toInt32 x < 2147483648 := by
  unfold toInt32
  omega

theorem toInt32_add_left (x y : Int) : toInt32 (toInt32 x + y) = toInt32 (x + y) := by
  unfold toInt32
  omega

/-- The count at the root is the sum of the counts of the trees the merge
process started from, up to a multiple of 2^32. -/
theorem Merged.count_mod {pq : List HuffmanNode} {r : HuffmanNode} (h : Merged pq r) :
    toInt32 r.count = toInt32 (pq.map HuffmanNode.count).sum := by
  induction h with
  | done r => simp
  | step pq a b rest r hperm _ _ _ ih =>
    rw [ih, (hperm.map HuffmanNode.count).sum_eq]
    simp only [List.map_cons, List.sum_cons, HuffmanNode.count]
    rw [toInt32_add_left]
    congr 1
    ring

theorem Merged.count_range {pq : List HuffmanNode} {r : HuffmanNode} (h : Merged pq r)
    (hpq : ∀ t ∈ pq, -2147483648 ≤ t.count ∧ t.count < 2147483648) :
    -2147483648 ≤ r.count ∧ r.count < 2147483648 := by
  induction h with
  | done r => exact hpq r (by simp)
  | step pq a b rest r hperm _ _ _ ih =>
    apply ih
    intro t ht
    rcases List.mem_cons.mp ht with rfl | ht
    · exact toInt32_range _
    · exact hpq t (hperm.symm.subset (by simp [ht]))

/-- When the counts the merge process starts from and their sum are in the range
of `int`, the count at the root is their sum. -/
theorem Merged.count_eq {pq : List HuffmanNode} {r : HuffmanNode} (h : Merged pq r)
    (hpq : ∀ t ∈ pq, -2147483648 ≤ t.count ∧ t.count < 2147483648)
    (h1 : -2147483648 ≤ (pq.map HuffmanNode.count).sum)
    (h2 : (pq.map HuffmanNode.count).sum < 2147483648) :
    r.count = (pq.map HuffmanNode.count).sum := by
  have hr := h.count_range hpq
  rw [← toInt32_of_range hr.1 hr.2, h.count_mod, toInt32_of_range h1 h2]

/-- With two trees or more to start from, the tree reached is a node made by a
merge step. -/
theorem Merged.internal {pq : List HuffmanNode} {r : HuffmanNode} (h : Merged pq r)
    (hpq : ∀ t ∈ pq, t.Full) (hlen : 2 ≤ pq.length) :
    ∃ n zero one, r = .node NOT_A_CHAR n zero one ∧ zero.Full ∧ one.Full ∧
      n = toInt32 (zero.count + one.count) := by
  induction h with
  | done r => simp at hlen
  | step pq a b rest r hperm _ _ hm ih =>
    have ha : a.Full := hpq a (hperm.symm.subset (by simp))
    have hb : b.Full := hpq b (hperm.symm.subset (by simp))
    have hfull : ∀ t ∈ HuffmanNode.node NOT_A_CHAR (toInt32 (a.count + b.count)) a b :: rest, t.Full := by
      intro t ht
      rcases List.mem_cons.mp ht with rfl | ht
      · exact full_join ha hb
      · exact hpq t (hperm.symm.subset (by simp [ht]))
    cases rest with
    | nil =>
      cases hm with
      | done => exact ⟨_, a, b, rfl, ha, hb, rfl⟩
      | step _ a' b' rest' _ hperm' _ _ _ =>
        have := hperm'.length_eq
        simp at this
    | cons x rest => exact ih hfull (by simp)

theorem hashmapF.get_of_mem {m : hashmapF} (hm : (hashmapF.keys m).Nodup) {k v : Int}
    (h : (k, v) ∈ m) : hashmapF.get m k = v := by
  induction m with
  | nil => simp at h
  | cons e rest ih =>
    obtain ⟨a, b⟩ := e
    have hnd : a ∉ hashmapF.keys rest ∧ (hashmapF.keys rest).Nodup := by
      simpa [hashmapF.keys] using hm
    rcases List.mem_cons.mp h with heq | hmem
    · cases heq
      simp [hashmapF.get]
    · have hne : a ≠ k := by
        rintro rfl
        exact hnd.1 (List.mem_map.mpr ⟨(a, v), hmem, rfl⟩)
      simp [hashmapF.get, hne, ih hnd.2 hmem]

/-- The leaves seeded from a table with unique keys are the entries of the
table. -/
theorem seed_leaves (m : hashmapF) (hm : (hashmapF.keys m).Nodup) :
    ((hashmapF.keys m).map (leafOf m)).flatMap HuffmanNode.leaves = m := by
  have key : ∀ l : List (Int × Int), (∀ e ∈ l, e ∈ m) →
      (l.map (leafOf m ∘ Prod.fst)).flatMap HuffmanNode.leaves = l := by
    intro l
    induction l with
    | nil => intro _; rfl
    | cons e rest ih =>
      intro hl
      obtain ⟨a, b⟩ := e
      have hget : hashmapF.get m a = b := hashmapF.get_of_mem hm (hl _ (by simp))
      have := ih (fun e he => hl e (by simp [he]))
      simp [leafOf, HuffmanNode.leaves, HuffmanNode.isNull, hget]
      simpa [leafOf] using this
  have := key m (fun _ h => h)
  simpa [hashmapF.keys, List.map_map] using this

theorem seed_counts (m : hashmapF) (hm : (hashmapF.keys m).Nodup) :
    ((hashmapF.keys m).map (leafOf m)).map HuffmanNode.count = m.map Prod.snd := by
  have key : ∀ l : List (Int × Int), (∀ e ∈ l, e ∈ m) →
      l.map (HuffmanNode.count ∘ leafOf m ∘ Prod.fst) = l.map Prod.snd := by
    intro l hl
    apply List.map_congr_left
    rintro ⟨a, b⟩ he
    simp [leafOf, HuffmanNode.count, hashmapF.get_of_mem hm (hl _ he)]
  have := key m (fun _ h => h)
  simpa [hashmapF.keys, List.map_map] using this

theorem seed_full (m : hashmapF) : ∀ t ∈ (hashmapF.keys m).map (leafOf m), t.Full := by
  intro t ht
  obtain ⟨k, _, rfl⟩ := List.mem_map.mp ht
  exact leafOf_full m k

/-! ## The code table -/

theorem hashmapE.assign_new (em : hashmapE) (k : Int) (str : List Char)
    (h : k ∉ em.map Prod.fst) : hashmapE.assign em k str = em ++ [(k, str)] := by
  induction em with
  | nil => rfl
  | cons e rest ih =>
    obtain ⟨a, b⟩ := e
    have h' : ¬ k = a ∧ k ∉ rest.map Prod.fst := by simpa using h
    have hne : a ≠ k := fun hh => h'.1 hh.symm
    simp [hashmapE.assign, hne, ih h'.2]

theorem paths_keys (t : HuffmanNode) : t.paths.map Prod.fst = t.leaves.map Prod.fst := by
  induction t with
  | null => rfl
  | node c n z o ihz iho =>
    by_cases hl : (z.isNull && o.isNull) = true
    · simp [HuffmanNode.paths, HuffmanNode.leaves, hl]
    · simp [HuffmanNode.paths, HuffmanNode.leaves, hl, List.map_map, Function.comp_def,
        ← ihz, ← iho]

theorem full_cases {c n : Int} {z o : HuffmanNode} (h : (HuffmanNode.node c n z o).Full) :
    (z = .null ∧ o = .null) ∨
      ((z.isNull && o.isNull) = false ∧ c = NOT_A_CHAR ∧ n = toInt32 (z.count + o.count) ∧
        z.Full ∧ o.Full) := by
  unfold HuffmanNode.Full at h
  rcases h with h | ⟨h1, h2, h3, h4⟩
  · exact Or.inl h
  · exact Or.inr ⟨by simp [h3.ne_null], h1, h2, h3, h4⟩

/-- On a full tree whose leaves carry pairwise distinct symbols, none of them
`NOT_A_CHAR` and none already in the table, the traversal adds the root-to-leaf
paths to the table, each after the string `str` accumulated so far. -/
theorem _buildEncodingMap_spec (t : HuffmanNode) (hfull : t.Full) :
    ∀ (em : hashmapE) (str : List Char),
      (em.map Prod.fst ++ t.leaves.map Prod.fst).Nodup →
      (∀ e ∈ t.leaves, e.1 ≠ NOT_A_CHAR) →
      _buildEncodingMap t em str =
        some (em ++ t.paths.map (fun e => (e.1, str ++ e.2))) := by
  induction t with
  | null => exact absurd hfull (by simp [HuffmanNode.Full])
  | node c n z o ihz iho =>
    intro em str hnd hnac
    rcases full_cases hfull with ⟨rfl, rfl⟩ | ⟨hl, rfl, _, hz, ho⟩
    · have hc : c ≠ NOT_A_CHAR := hnac (c, n) (by simp [HuffmanNode.leaves, HuffmanNode.isNull])
      have hnew : c ∉ em.map Prod.fst := by
        have := hnd
        simp only [HuffmanNode.leaves, HuffmanNode.isNull, Bool.and_self, if_true,
          List.map_cons, List.map_nil] at this
        intro hmem
        exact (List.nodup_append.mp this).2.2 hmem (by simp)
      simp [_buildEncodingMap, hc, hashmapE.assign_new em c str hnew, HuffmanNode.paths,
        HuffmanNode.isNull]
    · have hleaves : (HuffmanNode.node NOT_A_CHAR n z o).leaves = z.leaves ++ o.leaves := by
        simp [HuffmanNode.leaves, hl]
      rw [hleaves] at hnd hnac
      have hnd' : (em.map Prod.fst ++ (z.leaves.map Prod.fst ++ o.leaves.map Prod.fst)).Nodup := by
        simpa using hnd
      have hndz : (em.map Prod.fst ++ z.leaves.map Prod.fst).Nodup := by
        rw [← List.append_assoc] at hnd'
        exact (List.nodup_append.mp hnd').1
      have hz' := ihz hz em (str ++ ['0']) hndz (fun e he => hnac e (by simp [he]))
      have hndo : ((em ++ z.paths.map (fun e => (e.1, (str ++ ['0']) ++ e.2))).map Prod.fst ++
          o.leaves.map Prod.fst).Nodup := by
        have : (z.paths.map (fun e => (e.1, (str ++ ['0']) ++ e.2))).map Prod.fst =
            z.leaves.map Prod.fst := by
          rw [← paths_keys]
          simp [List.map_map, Function.comp_def]
        rw [List.map_append, this, List.append_assoc]
        exact hnd'
      have ho' := iho ho _ (str ++ ['1']) hndo (fun e he => hnac e (by simp [he]))
      rw [_buildEncodingMap]
      simp only [ne_eq, not_true_eq_false, if_false, hz', List.dropLast_concat, ho']
      simp [HuffmanNode.paths, hl, List.map_map, Function.comp_def]

/-- For a full tree with pairwise distinct leaf symbols other than `NOT_A_CHAR`,
`buildEncodingMap` returns the table of the root-to-leaf paths. -/
theorem buildEncodingMap_spec (t : HuffmanNode) (hfull : t.Full)
    (hnd : (t.leaves.map Prod.fst).Nodup) (hnac : ∀ e ∈ t.leaves, e.1 ≠ NOT_A_CHAR) :
    buildEncodingMap t = some t.paths := by
  have hne : t ≠ .null := by
    rintro rfl
    simp [HuffmanNode.Full] at hfull
  have := _buildEncodingMap_spec t hfull [] [] (by simpa using hnd) hnac
  simpa [buildEncodingMap, hne] using this

theorem hashmapE.find_eq_some_of_mem {em : hashmapE} (hnd : (em.map Prod.fst).Nodup)
    {k : Int} {str : List Char} (h : (k, str) ∈ em) : hashmapE.find em k = some str := by
  induction em with
  | nil => simp at h
  | cons e rest ih =>
    obtain ⟨a, b⟩ := e
    have hnd' : a ∉ rest.map Prod.fst ∧ (rest.map Prod.fst).Nodup := by simpa using hnd
    rcases List.mem_cons.mp h with heq | hmem
    · cases heq
      simp [hashmapE.find]
    · have hne : a ≠ k := by
        rintro rfl
        exact hnd'.1 (List.mem_map.mpr ⟨(a, str), hmem, rfl⟩)
      simp [hashmapE.find, hne, ih hnd'.2 hmem]

theorem hashmapE.mem_of_find {em : hashmapE} {k : Int} {str : List Char}
    (h : hashmapE.find em k = some str) : (k, str) ∈ em := by
  induction em with
  | nil => simp [hashmapE.find] at h
  | cons e rest ih =>
    obtain ⟨a, b⟩ := e
    by_cases hk : a = k
    · subst hk
      simp [hashmapE.find] at h
      simp [h]
    · simp only [hashmapE.find, hk, if_false] at h
      simp [ih h]

theorem mem_paths_node {c n : Int} {z o : HuffmanNode}
    (hl : (z.isNull && o.isNull) = false) {x : Int} {p : List Char}
    (h : (x, p) ∈ (HuffmanNode.node c n z o).paths) :
    (∃ q, p = '0' :: q ∧ (x, q) ∈ z.paths) ∨ (∃ q, p = '1' :: q ∧ (x, q) ∈ o.paths) := by
  simp only [HuffmanNode.paths, hl, Bool.false_eq_true, if_false, List.mem_append,
    List.mem_map, Prod.mk.injEq] at h
  rcases h with ⟨e, he, rfl, rfl⟩ | ⟨e, he, rfl, rfl⟩
  · exact Or.inl ⟨e.2, rfl, he⟩
  · exact Or.inr ⟨e.2, rfl, he⟩

/-- In a full tree, when the path to a leaf is a prefix of the path to a leaf,
the two leaves carry the same symbol (they are the same leaf). -/
theorem paths_prefix_free (t : HuffmanNode) (hfull : t.Full) :
    ∀ (x y : Int) (px py : List Char), (x, px) ∈ t.paths → (y, py) ∈ t.paths →
      px <+: py → x = y ∧ px = py := by
  induction t with
  | null => exact absurd hfull (by simp [HuffmanNode.Full])
  | node c n z o ihz iho =>
    intro x y px py hx hy hpre
    rcases full_cases hfull with ⟨rfl, rfl⟩ | ⟨hl, _, _, hz, ho⟩
    · simp [HuffmanNode.paths, HuffmanNode.isNull] at hx hy
      exact ⟨hx.1.trans hy.1.symm, hx.2.trans hy.2.symm⟩
    · rcases mem_paths_node hl hx with ⟨qx, rfl, hqx⟩ | ⟨qx, rfl, hqx⟩ <;>
        rcases mem_paths_node hl hy with ⟨qy, rfl, hqy⟩ | ⟨qy, rfl, hqy⟩
      · have := ihz hz x y qx qy hqx hqy (List.cons_prefix_cons.mp hpre).2
        exact ⟨this.1, by rw [this.2]⟩
      · exact absurd (List.cons_prefix_cons.mp hpre).1 (by decide)
      · exact absurd (List.cons_prefix_cons.mp hpre).1 (by decide)
      · have := iho ho x y qx qy hqx hqy (List.cons_prefix_cons.mp hpre).2
        exact ⟨this.1, by rw [this.2]⟩


/-! ## Encoding and decoding -/

theorem encode_binary (input : List Byte) (em : hashmapE) (makeFile : Bool) :
    (encode input em makeFile).binary =
      input.flatMap (fun c => hashmapE.index em (charToInt c)) ++
        hashmapE.index em PSEUDO_EOF := by
  have key : ∀ (S : List Byte) (acc : List Char),
      S.foldl (fun binary c => binary ++ hashmapE.index em (charToInt c)) acc =
        acc ++ S.flatMap (fun c => hashmapE.index em (charToInt c)) := by
    intro S
    induction S with
    | nil => intro acc; simp
    | cons c S ih => intro acc; simp [ih, List.flatMap_cons]
  simp [encode, key]

theorem bitsOf_append (a b : List Char) : bitsOf (a ++ b) = bitsOf a ++ bitsOf b := by
  simp [bitsOf]

theorem decodeLoop_node (root : HuffmanNode) (b : Bool) (input : List Bool)
    (c n : Int) (z o : HuffmanNode) (acc : List Int) :
    decodeLoop root (b :: input) (.node c n z o) acc =
      match (if b then o else z) with
      | .null => none
      | .node character k z' o' =>
        if character = PSEUDO_EOF then some ⟨acc, input, true⟩
        else if character ≠ NOT_A_CHAR then decodeLoop root input root (acc ++ [character])
        else decodeLoop root input (.node character k z' o') acc := by
  cases b
  · cases z <;> simp [decodeLoop, readBit]
  · cases o <;> simp [decodeLoop, readBit]

theorem mem_paths_zero {c n : Int} {z o : HuffmanNode}
    (hl : (z.isNull && o.isNull) = false) {e : Int × List Char} (he : e ∈ z.paths) :
    (e.1, '0' :: e.2) ∈ (HuffmanNode.node c n z o).paths := by
  simp only [HuffmanNode.paths, hl, Bool.false_eq_true, if_false, List.mem_append, List.mem_map]
  exact Or.inl ⟨e, he, rfl⟩

theorem mem_paths_one {c n : Int} {z o : HuffmanNode}
    (hl : (z.isNull && o.isNull) = false) {e : Int × List Char} (he : e ∈ o.paths) :
    (e.1, '1' :: e.2) ∈ (HuffmanNode.node c n z o).paths := by
  simp only [HuffmanNode.paths, hl, Bool.false_eq_true, if_false, List.mem_append, List.mem_map]
  exact Or.inr ⟨e, he, rfl⟩

theorem PSEUDO_EOF_ne_NOT_A_CHAR : PSEUDO_EOF ≠ NOT_A_CHAR := by decide

/-- Reading the bits of a full root-to-leaf path from an inner node of a full
tree: the sentinel's path ends the loop, any other path appends its symbol and
resumes at the root. -/
theorem decodeLoop_path (root : HuffmanNode) (cursor : HuffmanNode) (hfull : cursor.Full) :
    ∀ (x : Int) (p : List Char) (rest : List Bool) (acc : List Int),
      cursor.isLeaf = false → (∀ e ∈ cursor.paths, e.1 ≠ NOT_A_CHAR) →
      (x, p) ∈ cursor.paths →
      decodeLoop root (bitsOf p ++ rest) cursor acc =
        if x = PSEUDO_EOF then some ⟨acc, rest, true⟩
        else decodeLoop root rest root (acc ++ [x]) := by
  induction cursor with
  | null => exact absurd hfull (by simp [HuffmanNode.Full])
  | node c n z o ihz iho =>
    intro x p rest acc hint hnac hx
    have hl : (z.isNull && o.isNull) = false := hint
    rcases full_cases hfull with ⟨rfl, rfl⟩ | ⟨_, rfl, _, hz, ho⟩
    · simp [HuffmanNode.isNull] at hl
    · have hnacz : ∀ e ∈ z.paths, e.1 ≠ NOT_A_CHAR := by
        intro e he
        exact hnac (e.1, '0' :: e.2) (mem_paths_zero hl he)
      have hnaco : ∀ e ∈ o.paths, e.1 ≠ NOT_A_CHAR := by
        intro e he
        exact hnac (e.1, '1' :: e.2) (mem_paths_one hl he)
      rcases mem_paths_node hl hx with ⟨q, rfl, hq⟩ | ⟨q, rfl, hq⟩
      · have hb : bitsOf ('0' :: q) ++ rest = false :: (bitsOf q ++ rest) := by simp [bitsOf]
        rw [hb, decodeLoop_node]
        cases z with
        | null => exact absurd hz (by simp [HuffmanNode.Full])
        | node cz nz zz zo =>
          simp only [Bool.false_eq_true, if_false]
          rcases full_cases hz with ⟨rfl, rfl⟩ | ⟨hlz, rfl, _, _, _⟩
          · simp only [HuffmanNode.paths, HuffmanNode.isNull, Bool.and_self, if_true,
              List.mem_singleton, Prod.mk.injEq] at hq
            obtain ⟨rfl, rfl⟩ := hq
            have hne : x ≠ NOT_A_CHAR :=
              hnacz (x, []) (by simp [HuffmanNode.paths, HuffmanNode.isNull])
            simp [hne, bitsOf]
          · have := ihz hz x q rest acc hlz hnacz hq
            simp [PSEUDO_EOF_ne_NOT_A_CHAR.symm, this]
      · have hb : bitsOf ('1' :: q) ++ rest = true :: (bitsOf q ++ rest) := by
          simp [bitsOf]
        rw [hb, decodeLoop_node]
        cases o with
        | null => exact absurd ho (by simp [HuffmanNode.Full])
        | node co no oz oo =>
          simp only [if_true]
          rcases full_cases ho with ⟨rfl, rfl⟩ | ⟨hlo, rfl, _, _, _⟩
          · simp only [HuffmanNode.paths, HuffmanNode.isNull, Bool.and_self, if_true,
              List.mem_singleton, Prod.mk.injEq] at hq
            obtain ⟨rfl, rfl⟩ := hq
            have hne : x ≠ NOT_A_CHAR :=
              hnaco (x, []) (by simp [HuffmanNode.paths, HuffmanNode.isNull])
            simp [hne, bitsOf]
          · have := iho ho x q rest acc hlo hnaco hq
            simp [PSEUDO_EOF_ne_NOT_A_CHAR.symm, this]


theorem paths_ne_nil (t : HuffmanNode) (hfull : t.Full) : t.paths ≠ [] := by
  induction t with
  | null => exact absurd hfull (by simp [HuffmanNode.Full])
  | node c n z o ihz _ =>
    rcases full_cases hfull with ⟨rfl, rfl⟩ | ⟨hl, _, _, hz, _⟩
    · simp [HuffmanNode.paths, HuffmanNode.isNull]
    · have := ihz hz
      simp [HuffmanNode.paths, hl, this]

theorem bitsOf_zero (q : List Char) : bitsOf ('0' :: q) = false :: bitsOf q := by
  simp [bitsOf]

theorem bitsOf_one (q : List Char) : bitsOf ('1' :: q) = true :: bitsOf q := by
  simp [bitsOf]

/-- Reading a proper prefix of a root-to-leaf path from an inner node of a full
tree uses up the bits and appends nothing. -/
theorem decodeLoop_partial (root : HuffmanNode) (cursor : HuffmanNode) (hfull : cursor.Full) :
    ∀ (x : Int) (p : List Char) (q : List Bool) (acc : List Int),
      cursor.isLeaf = false → (x, p) ∈ cursor.paths → q <+: bitsOf p → q ≠ bitsOf p →
      decodeLoop root q cursor acc = some ⟨acc, [], false⟩ := by
  induction cursor with
  | null => exact absurd hfull (by simp [HuffmanNode.Full])
  | node c n z o ihz iho =>
    intro x p q acc hint hx hpre hne
    have hl : (z.isNull && o.isNull) = false := hint
    cases q with
    | nil => simp [decodeLoop]
    | cons b q =>
      rcases full_cases hfull with ⟨rfl, rfl⟩ | ⟨_, rfl, _, hz, ho⟩
      · simp [HuffmanNode.isNull] at hl
      · rcases mem_paths_node hl hx with ⟨p', rfl, hp'⟩ | ⟨p', rfl, hp'⟩
        · rw [bitsOf_zero] at hpre hne
          obtain ⟨rfl, hpre'⟩ := List.cons_prefix_cons.mp hpre
          have hne' : q ≠ bitsOf p' := fun h => hne (by rw [h])
          rw [decodeLoop_node]
          cases z with
          | null => exact absurd hz (by simp [HuffmanNode.Full])
          | node cz nz zz zo =>
            simp only [Bool.false_eq_true, if_false]
            rcases full_cases hz with ⟨rfl, rfl⟩ | ⟨hlz, rfl, _, _, _⟩
            · simp only [HuffmanNode.paths, HuffmanNode.isNull, Bool.and_self, if_true,
                List.mem_singleton, Prod.mk.injEq] at hp'
              obtain ⟨_, rfl⟩ := hp'
              simp [bitsOf] at hpre'
              exact absurd hpre' (by simpa [bitsOf] using hne')
            · have := ihz hz x p' q acc hlz hp' hpre' hne'
              simp [PSEUDO_EOF_ne_NOT_A_CHAR.symm, this]
        · rw [bitsOf_one] at hpre hne
          obtain ⟨rfl, hpre'⟩ := List.cons_prefix_cons.mp hpre
          have hne' : q ≠ bitsOf p' := fun h => hne (by rw [h])
          rw [decodeLoop_node]
          cases o with
          | null => exact absurd ho (by simp [HuffmanNode.Full])
          | node co no oz oo =>
            simp only [if_true]
            rcases full_cases ho with ⟨rfl, rfl⟩ | ⟨hlo, rfl, _, _, _⟩
            · simp only [HuffmanNode.paths, HuffmanNode.isNull, Bool.and_self, if_true,
                List.mem_singleton, Prod.mk.injEq] at hp'
              obtain ⟨_, rfl⟩ := hp'
              simp [bitsOf] at hpre'
              exact absurd hpre' (by simpa [bitsOf] using hne')
            · have := iho ho x p' q acc hlo hp' hpre' hne'
              simp [PSEUDO_EOF_ne_NOT_A_CHAR.symm, this]

/-- Every bit sequence either starts with the bits of a root-to-leaf path of a
full tree or is a proper prefix of such a path. -/
theorem paths_complete (t : HuffmanNode) (hfull : t.Full) :
    ∀ B : List Bool, (∃ x p, (x, p) ∈ t.paths ∧ bitsOf p <+: B) ∨
      (∃ x p, (x, p) ∈ t.paths ∧ B <+: bitsOf p ∧ B ≠ bitsOf p) := by
  induction t with
  | null => exact absurd hfull (by simp [HuffmanNode.Full])
  | node c n z o ihz iho =>
    intro B
    rcases full_cases hfull with ⟨rfl, rfl⟩ | ⟨hl, _, _, hz, ho⟩
    · exact Or.inl ⟨c, [], by simp [HuffmanNode.paths, HuffmanNode.isNull], by simp [bitsOf]⟩
    · cases B with
      | nil =>
        obtain ⟨e, he⟩ := List.exists_mem_of_ne_nil _ (paths_ne_nil z hz)
        exact Or.inr ⟨e.1, '0' :: e.2, mem_paths_zero hl he, List.nil_prefix, by simp [bitsOf]⟩
      | cons b B =>
        cases b with
        | false =>
          rcases ihz hz B with ⟨x, p, hp, hpre⟩ | ⟨x, p, hp, hpre, hne⟩
          · exact Or.inl ⟨x, '0' :: p, mem_paths_zero hl hp, by
              rw [bitsOf_zero]; exact List.cons_prefix_cons.mpr ⟨rfl, hpre⟩⟩
          · exact Or.inr ⟨x, '0' :: p, mem_paths_zero hl hp, by
              rw [bitsOf_zero]; exact List.cons_prefix_cons.mpr ⟨rfl, hpre⟩, by
              rw [bitsOf_zero]; intro h; exact hne (List.cons.inj h).2⟩
        | true =>
          rcases iho ho B with ⟨x, p, hp, hpre⟩ | ⟨x, p, hp, hpre, hne⟩
          · exact Or.inl ⟨x, '1' :: p, mem_paths_one hl hp, by
              rw [bitsOf_one]; exact List.cons_prefix_cons.mpr ⟨rfl, hpre⟩⟩
          · exact Or.inr ⟨x, '1' :: p, mem_paths_one hl hp, by
              rw [bitsOf_one]; exact List.cons_prefix_cons.mpr ⟨rfl, hpre⟩, by
              rw [bitsOf_one]; intro h; exact hne (List.cons.inj h).2⟩

/-- When the loop is left on the sentinel, bits that follow do not change what
was appended. -/
theorem decodeLoop_sentinel_stop (root : HuffmanNode) :
    ∀ (B1 B2 : List Bool) (cursor : HuffmanNode) (acc out : List Int) (rem : List Bool),
      decodeLoop root B1 cursor acc = some ⟨out, rem, true⟩ →
      decodeLoop root (B1 ++ B2) cursor acc = some ⟨out, rem ++ B2, true⟩ := by
  intro B1
  induction B1 with
  | nil =>
    intro B2 cursor acc out rem h
    simp [decodeLoop] at h
  | cons b B1 ih =>
    intro B2 cursor acc out rem h
    cases cursor with
    | null => simp [decodeLoop] at h
    | node c n z o =>
      rw [List.cons_append, decodeLoop_node]
      rw [decodeLoop_node] at h
      cases hnext : (if b then o else z) with
      | null => simp [hnext] at h
      | node ch k z' o' =>
        simp only [hnext] at h ⊢
        by_cases h1 : ch = PSEUDO_EOF
        · simp only [h1, if_true, Option.some.injEq, DecodeRun.mk.injEq] at h ⊢
          obtain ⟨rfl, rfl, _⟩ := h
          simp
        · by_cases h2 : ch = NOT_A_CHAR
          · simp only [h1, h2, if_false, ne_eq, not_true_eq_false] at h ⊢
            exact ih B2 _ _ _ _ (by simpa [h2] using h)
          · simp only [h1, h2, if_false, ne_eq, not_false_eq_true, if_true] at h ⊢
            exact ih B2 _ _ _ _ h

/-- The sentinel is never appended. -/
theorem decodeLoop_no_sentinel (root : HuffmanNode) :
    ∀ (B : List Bool) (cursor : HuffmanNode) (acc : List Int) (run : DecodeRun),
      decodeLoop root B cursor acc = some run → PSEUDO_EOF ∉ acc →
      PSEUDO_EOF ∉ run.decodedString := by
  intro B
  induction B with
  | nil =>
    intro cursor acc run h hacc
    simp only [decodeLoop, Option.some.injEq] at h
    subst h
    exact hacc
  | cons b B ih =>
    intro cursor acc run h hacc
    cases cursor with
    | null => simp [decodeLoop] at h
    | node c n z o =>
      rw [decodeLoop_node] at h
      cases hnext : (if b then o else z) with
      | null => simp [hnext] at h
      | node ch k z' o' =>
        simp only [hnext] at h
        by_cases h1 : ch = PSEUDO_EOF
        · simp only [h1, if_true, Option.some.injEq] at h
          subst h
          exact hacc
        · by_cases h2 : ch = NOT_A_CHAR
          · simp only [h1, h2, if_false, ne_eq, not_true_eq_false] at h
            exact ih _ _ _ h hacc
          · simp only [h1, h2, if_false, ne_eq, not_false_eq_true, if_true] at h
            refine ih _ _ _ h ?_
            simp only [List.mem_append, List.mem_singleton, not_or]
            exact ⟨hacc, fun hh => h1 hh.symm⟩


theorem index_paths {t : HuffmanNode} (hnd : (t.paths.map Prod.fst).Nodup) {x : Int}
    {p : List Char} (h : (x, p) ∈ t.paths) : hashmapE.index t.paths x = p := by
  simp [hashmapE.index, hashmapE.find_eq_some_of_mem hnd h]

theorem exists_path_of_mem_keys {t : HuffmanNode} {x : Int}
    (h : x ∈ t.paths.map Prod.fst) : ∃ p, (x, p) ∈ t.paths := by
  obtain ⟨e, he, rfl⟩ := List.mem_map.mp h
  exact ⟨e.2, he⟩

theorem path_ne_nil_of_inner {t : HuffmanNode} (hint : t.isLeaf = false) {x : Int}
    {p : List Char} (h : (x, p) ∈ t.paths) : p ≠ [] := by
  cases t with
  | null => simp [HuffmanNode.paths] at h
  | node c n z o =>
    have hl : (z.isNull && o.isNull) = false := hint
    rcases mem_paths_node hl h with ⟨q, rfl, _⟩ | ⟨q, rfl, _⟩ <;> simp

/-- Decoding the codes of a sequence of symbols followed by the sentinel's code,
from the root of a full tree that is not a single leaf: exactly the symbols are
appended, and the loop is left on the sentinel with the following bits unread. -/
theorem decodeLoop_encoded (root : HuffmanNode) (hfull : root.Full)
    (hint : root.isLeaf = false) (hnd : (root.paths.map Prod.fst).Nodup)
    (hnac : ∀ e ∈ root.paths, e.1 ≠ NOT_A_CHAR)
    (heof : PSEUDO_EOF ∈ root.paths.map Prod.fst) :
    ∀ (syms : List Int) (rest : List Bool) (acc : List Int),
      (∀ s ∈ syms, s ∈ root.paths.map Prod.fst ∧ s ≠ PSEUDO_EOF) →
      decodeLoop root
        (bitsOf (syms.flatMap (hashmapE.index root.paths) ++
          hashmapE.index root.paths PSEUDO_EOF) ++ rest) root acc =
        some ⟨acc ++ syms, rest, true⟩ := by
  intro syms
  induction syms with
  | nil =>
    intro rest acc _
    obtain ⟨p, hp⟩ := exists_path_of_mem_keys heof
    simp only [List.flatMap_nil, List.nil_append, index_paths hnd hp, List.append_nil]
    rw [decodeLoop_path root root hfull PSEUDO_EOF p rest acc hint hnac hp]
    simp
  | cons s syms ih =>
    intro rest acc hs
    obtain ⟨hmem, hne⟩ := hs s (by simp)
    obtain ⟨p, hp⟩ := exists_path_of_mem_keys hmem
    have hsplit : bitsOf ((s :: syms).flatMap (hashmapE.index root.paths) ++
        hashmapE.index root.paths PSEUDO_EOF) ++ rest =
        bitsOf p ++ (bitsOf (syms.flatMap (hashmapE.index root.paths) ++
          hashmapE.index root.paths PSEUDO_EOF) ++ rest) := by
      simp [List.flatMap_cons, index_paths hnd hp, bitsOf_append, List.append_assoc]
    rw [hsplit, decodeLoop_path root root hfull s p _ acc hint hnac hp]
    simp only [hne, if_false]
    rw [ih rest (acc ++ [s]) (fun t ht => hs t (by simp [ht]))]
    simp

/-- Complete account of the loop of `decode` started at the root of a full tree
that is not a single leaf, on any bit sequence: the loop returns; when it was
not left on the sentinel, the bits are the codes of the appended symbols
followed by a proper prefix of a code; when it was left on the sentinel, the
bits are the codes of the appended symbols, the sentinel's code, and the
unread bits. -/
theorem decodeLoop_account (root : HuffmanNode) (hfull : root.Full)
    (hint : root.isLeaf = false) (hnd : (root.paths.map Prod.fst).Nodup)
    (hnac : ∀ e ∈ root.paths, e.1 ≠ NOT_A_CHAR) :
    ∀ (B : List Bool) (acc : List Int),
      ∃ run syms, decodeLoop root B root acc = some run ∧
        run.decodedString = acc ++ syms ∧
        (∀ s ∈ syms, s ∈ root.paths.map Prod.fst ∧ s ≠ PSEUDO_EOF) ∧
        (run.atSentinel = false →
          run.input = [] ∧
          ∃ rem, B = bitsOf (syms.flatMap (hashmapE.index root.paths)) ++ rem ∧
            ∃ x p, (x, p) ∈ root.paths ∧ rem <+: bitsOf p ∧ rem ≠ bitsOf p) ∧
        (run.atSentinel = true →
          B = bitsOf (syms.flatMap (hashmapE.index root.paths) ++
            hashmapE.index root.paths PSEUDO_EOF) ++ run.input) := by
  intro B
  generalize hlen : B.length = k
  induction k using Nat.strong_induction_on generalizing B with
  | _ k ih =>
    intro acc
    rcases paths_complete root hfull B with ⟨x, p, hp, q, rfl⟩ | ⟨x, p, hp, hpre, hne⟩
    · by_cases hx : x = PSEUDO_EOF
      · subst hx
        refine ⟨⟨acc, q, true⟩, [], ?_, by simp, by simp, by simp, ?_⟩
        · rw [decodeLoop_path root root hfull PSEUDO_EOF p q acc hint hnac hp]
          simp
        · intro _
          simp [index_paths hnd hp]
      · have hplen : 0 < (bitsOf p).length := by
          have := path_ne_nil_of_inner hint hp
          cases p with
          | nil => exact absurd rfl this
          | cons _ _ => simp [bitsOf]
        have hq : q.length < k := by
          rw [← hlen, List.length_append]
          omega
        obtain ⟨run, syms, hrun, hdec, hsyms, hfalse, htrue⟩ := ih q.length hq q rfl (acc ++ [x])
        refine ⟨run, x :: syms, ?_, by simp [hdec], ?_, ?_, ?_⟩
        · rw [decodeLoop_path root root hfull x p q acc hint hnac hp]
          simp [hx, hrun]
        · intro s hs
          rcases List.mem_cons.mp hs with rfl | hs
          · exact ⟨List.mem_map.mpr ⟨(s, p), hp, rfl⟩, hx⟩
          · exact hsyms s hs
        · intro hat
          obtain ⟨hin, rem, hq', hrem⟩ := hfalse hat
          refine ⟨hin, rem, ?_, hrem⟩
          rw [hq']
          simp [List.flatMap_cons, index_paths hnd hp, bitsOf_append, List.append_assoc]
        · intro hat
          have hq' := htrue hat
          rw [List.flatMap_cons, index_paths hnd hp]
          conv_lhs => rw [hq']
          simp [bitsOf_append, List.append_assoc]
    · refine ⟨⟨acc, [], false⟩, [], ?_, by simp, by simp, ?_, by simp⟩
      · exact decodeLoop_partial root root hfull x p B acc hint hp hpre hne
      · intro _
        exact ⟨rfl, B, by simp [bitsOf], x, p, hp, hpre, hne⟩


/-! ## Optimality: exchange argument on weighted trees -/

theorem WTree.leafAt_length_le (T : WTree) :
    ∀ (p : List Bool) (v : Int), T.leafAt p = some v → p.length ≤ T.height := by
  induction T with
  | leaf w => intro p v h; cases p <;> simp [WTree.leafAt] at h ⊢
  | node l r ihl ihr =>
    intro p v h
    match p, h with
    | false :: p, h =>
      have := ihl p v (by simpa [WTree.leafAt] using h)
      simp [WTree.height]; omega
    | true :: p, h =>
      have := ihr p v (by simpa [WTree.leafAt] using h)
      simp [WTree.height]; omega

theorem WTree.weights_setLeaf (T : WTree) :
    ∀ (p : List Bool) (v w : Int), T.leafAt p = some v →
      ∃ A B, T.weights = A ++ v :: B ∧ (T.setLeaf p w).weights = A ++ w :: B := by
  induction T with
  | leaf u =>
    intro p v w h
    cases p with
    | nil =>
      simp only [WTree.leafAt, Option.some.injEq] at h
      subst h
      exact ⟨[], [], rfl, rfl⟩
    | cons _ _ => simp [WTree.leafAt] at h
  | node l r ihl ihr =>
    intro p v w h
    match p, h with
    | false :: p, h =>
      obtain ⟨A, B, h1, h2⟩ := ihl p v w (by simpa [WTree.leafAt] using h)
      exact ⟨A, B ++ r.weights, by simp [WTree.weights, h1], by
        simp [WTree.setLeaf, WTree.weights, h2]⟩
    | true :: p, h =>
      obtain ⟨A, B, h1, h2⟩ := ihr p v w (by simpa [WTree.leafAt] using h)
      exact ⟨l.weights ++ A, B, by simp [WTree.weights, h1], by
        simp [WTree.setLeaf, WTree.weights, h2]⟩

theorem WTree.costAt_setLeaf (T : WTree) :
    ∀ (p : List Bool) (v w : Int) (d : Nat), T.leafAt p = some v →
      (T.setLeaf p w).costAt d = T.costAt d + (w - v) * ((d : Int) + (p.length : Int)) := by
  induction T with
  | leaf u =>
    intro p v w d h
    cases p with
    | nil =>
      simp only [WTree.leafAt, Option.some.injEq] at h
      subst h
      simp [WTree.setLeaf, WTree.costAt]
      ring
    | cons _ _ => simp [WTree.leafAt] at h
  | node l r ihl ihr =>
    intro p v w d h
    match p, h with
    | false :: p, h =>
      have := ihl p v w (d + 1) (by simpa [WTree.leafAt] using h)
      simp only [WTree.setLeaf, WTree.costAt, this, List.length_cons]
      push_cast
      ring
    | true :: p, h =>
      have := ihr p v w (d + 1) (by simpa [WTree.leafAt] using h)
      simp only [WTree.setLeaf, WTree.costAt, this, List.length_cons]
      push_cast
      ring

theorem WTree.leafAt_setLeaf_same (T : WTree) :
    ∀ (p : List Bool) (v w : Int), T.leafAt p = some v →
      (T.setLeaf p w).leafAt p = some w := by
  induction T with
  | leaf u =>
    intro p v w h
    cases p with
    | nil => simp [WTree.setLeaf, WTree.leafAt]
    | cons _ _ => simp [WTree.leafAt] at h
  | node l r ihl ihr =>
    intro p v w h
    match p, h with
    | false :: p, h =>
      simpa [WTree.setLeaf, WTree.leafAt] using ihl p v w (by simpa [WTree.leafAt] using h)
    | true :: p, h =>
      simpa [WTree.setLeaf, WTree.leafAt] using ihr p v w (by simpa [WTree.leafAt] using h)

theorem WTree.leafAt_setLeaf_other (T : WTree) :
    ∀ (p q : List Bool) (w : Int), p ≠ q → (T.setLeaf p w).leafAt q = T.leafAt q := by
  induction T with
  | leaf u =>
    intro p q w hne
    cases p with
    | nil =>
      cases q with
      | nil => exact absurd rfl hne
      | cons _ _ => simp [WTree.setLeaf, WTree.leafAt]
    | cons _ _ => simp [WTree.setLeaf]
  | node l r ihl ihr =>
    intro p q w hne
    match p, q, hne with
    | [], _, _ => simp [WTree.setLeaf]
    | false :: p, [], _ => simp [WTree.setLeaf, WTree.leafAt]
    | true :: p, [], _ => simp [WTree.setLeaf, WTree.leafAt]
    | false :: p, true :: q, _ => simp [WTree.setLeaf, WTree.leafAt]
    | true :: p, false :: q, _ => simp [WTree.setLeaf, WTree.leafAt]
    | false :: p, false :: q, hne =>
      simpa [WTree.setLeaf, WTree.leafAt] using ihl p q w (fun h => hne (by rw [h]))
    | true :: p, true :: q, hne =>
      simpa [WTree.setLeaf, WTree.leafAt] using ihr p q w (fun h => hne (by rw [h]))

theorem WTree.leafAt_mem (T : WTree) (p : List Bool) (v : Int) (h : T.leafAt p = some v) :
    v ∈ T.weights := by
  obtain ⟨A, B, h1, _⟩ := T.weights_setLeaf p v 0 h
  rw [h1]
  simp

theorem WTree.exists_leafAt (T : WTree) :
    ∀ v ∈ T.weights, ∃ p, T.leafAt p = some v := by
  induction T with
  | leaf u =>
    intro v hv
    simp only [WTree.weights, List.mem_singleton] at hv
    subst hv
    exact ⟨[], rfl⟩
  | node l r ihl ihr =>
    intro v hv
    rcases List.mem_append.mp hv with h | h
    · obtain ⟨p, hp⟩ := ihl v h
      exact ⟨false :: p, by simpa [WTree.leafAt] using hp⟩
    · obtain ⟨p, hp⟩ := ihr v h
      exact ⟨true :: p, by simpa [WTree.leafAt] using hp⟩


/-- Two different paths to leaves: the count at the second is among the counts
that remain when the count at the first is taken out. -/
theorem WTree.leafAt_two (T : WTree) (p q : List Bool) (u v : Int) (hne : p ≠ q)
    (hp : T.leafAt p = some u) (hq : T.leafAt q = some v) :
    ∃ A B, T.weights = A ++ u :: B ∧ v ∈ A ++ B := by
  obtain ⟨A, B, h1, h2⟩ := T.weights_setLeaf p u (v + 1) hp
  refine ⟨A, B, h1, ?_⟩
  have hq' : (T.setLeaf p (v + 1)).leafAt q = some v := by
    rw [T.leafAt_setLeaf_other p q (v + 1) hne, hq]
  have := (T.setLeaf p (v + 1)).leafAt_mem q v hq'
  rw [h2] at this
  rcases List.mem_append.mp this with h | h
  · exact List.mem_append.mpr (Or.inl h)
  · rcases List.mem_cons.mp h with h | h
    · omega
    · exact List.mem_append.mpr (Or.inr h)

/-- Exchanging the counts at two leaves. -/
theorem WTree.swap_spec (T : WTree) (p q : List Bool) (u v : Int)
    (hp : T.leafAt p = some u) (hq : T.leafAt q = some v) :
    ((T.setLeaf p v).setLeaf q u).weights.Perm T.weights ∧
    (∀ d, ((T.setLeaf p v).setLeaf q u).costAt d =
      T.costAt d - (v - u) * ((q.length : Int) - (p.length : Int))) ∧
    ((T.setLeaf p v).setLeaf q u).leafAt q = some u ∧
    ((T.setLeaf p v).setLeaf q u).leafAt p = some v ∧
    (∀ r, r ≠ p → r ≠ q → ((T.setLeaf p v).setLeaf q u).leafAt r = T.leafAt r) := by
  have hq1 : (T.setLeaf p v).leafAt q = some v := by
    by_cases h : p = q
    · subst h
      exact T.leafAt_setLeaf_same p u v hp
    · rw [T.leafAt_setLeaf_other p q v h, hq]
  obtain ⟨A, B, h1, h2⟩ := T.weights_setLeaf p u v hp
  obtain ⟨A', B', h3, h4⟩ := (T.setLeaf p v).weights_setLeaf q v u hq1
  refine ⟨?_, ?_, ?_, ?_, ?_⟩
  · rw [h4, h1]
    have e1 : (A' ++ v :: B').Perm (A ++ v :: B) := by rw [← h3, h2]
    have e2 : (v :: (A' ++ B')).Perm (v :: (A ++ B)) :=
      (List.perm_middle.symm.trans e1).trans List.perm_middle
    have e3 : (A' ++ B').Perm (A ++ B) := e2.cons_inv
    exact (List.perm_middle.trans (e3.cons u)).trans List.perm_middle.symm
  · intro d
    rw [(T.setLeaf p v).costAt_setLeaf q v u d hq1, T.costAt_setLeaf p u v d hp]
    ring
  · exact (T.setLeaf p v).leafAt_setLeaf_same q v u hq1
  · by_cases h : p = q
    · subst h
      rw [hp] at hq
      cases hq
      exact (T.setLeaf p u).leafAt_setLeaf_same p u u (T.leafAt_setLeaf_same p u u hp)
    · rw [(T.setLeaf p v).leafAt_setLeaf_other q p u (fun hh => h hh.symm)]
      exact T.leafAt_setLeaf_same p u v hp
  · intro r hrp hrq
    rw [(T.setLeaf p v).leafAt_setLeaf_other q r u (fun hh => hrq hh.symm),
      T.leafAt_setLeaf_other p r v (fun hh => hrp hh.symm)]

/-- A tree that is not a single leaf has, at its greatest depth, two leaves with
the same parent. -/
theorem WTree.exists_deepest_pair (T : WTree) :
    ∀ l r, T = .node l r → ∃ q x y, T.leafAt (q ++ [false]) = some x ∧
      T.leafAt (q ++ [true]) = some y ∧ q.length + 1 = T.height := by
  induction T with
  | leaf w => intro l r h; cases h
  | node l r ihl ihr =>
    intro l' r' _
    cases hl : l with
    | leaf x =>
      cases hr : r with
      | leaf y => exact ⟨[], x, y, rfl, rfl, by simp [WTree.height]⟩
      | node r1 r2 =>
        obtain ⟨q, x', y', h1, h2, h3⟩ := ihr r1 r2 hr
        rw [hr] at h1 h2 h3
        refine ⟨true :: q, x', y', by simpa [WTree.leafAt] using h1,
          by simpa [WTree.leafAt] using h2, ?_⟩
        simp only [WTree.height, List.length_cons] at h3 ⊢
        omega
    | node l1 l2 =>
      by_cases hh : r.height ≤ l.height
      · obtain ⟨q, x', y', h1, h2, h3⟩ := ihl l1 l2 hl
        rw [hl] at h1 h2 h3 hh
        refine ⟨false :: q, x', y', by simpa [WTree.leafAt] using h1,
          by simpa [WTree.leafAt] using h2, ?_⟩
        simp only [WTree.height, List.length_cons] at h3 hh ⊢
        omega
      · cases hr : r with
        | leaf y =>
          rw [hr] at hh
          simp [WTree.height] at hh
        | node r1 r2 =>
          obtain ⟨q, x', y', h1, h2, h3⟩ := ihr r1 r2 hr
          rw [hr] at h1 h2 h3 hh
          rw [hl] at hh
          refine ⟨true :: q, x', y', by simpa [WTree.leafAt] using h1,
            by simpa [WTree.leafAt] using h2, ?_⟩
          simp only [WTree.height, List.length_cons] at h3 hh ⊢
          omega

/-- Merging two leaves with the same parent. -/
theorem WTree.mergeAt_spec (T : WTree) :
    ∀ (q : List Bool) (x y : Int), T.leafAt (q ++ [false]) = some x →
      T.leafAt (q ++ [true]) = some y →
      (∃ A B, T.weights = A ++ x :: y :: B ∧ (T.mergeAt q).weights = A ++ (x + y) :: B) ∧
      ∀ d, (T.mergeAt q).costAt d + x + y = T.costAt d := by
  induction T with
  | leaf w => intro q x y h; cases q <;> simp [WTree.leafAt] at h
  | node l r ihl ihr =>
    intro q x y hx hy
    match q, hx, hy with
    | [], kx, ky =>
      simp only [List.nil_append, WTree.leafAt] at kx ky
      cases l with
      | node _ _ => simp [WTree.leafAt] at kx
      | leaf x' =>
        cases r with
        | node _ _ => simp [WTree.leafAt] at ky
        | leaf y' =>
          simp only [WTree.leafAt, Option.some.injEq] at kx ky
          subst kx ky
          refine ⟨⟨[], [], rfl, rfl⟩, ?_⟩
          intro d
          simp only [WTree.mergeAt, WTree.costAt]
          push_cast
          ring
    | false :: q, hx, hy =>
      obtain ⟨⟨A, B, h1, h2⟩, h3⟩ := ihl q x y (by simpa [WTree.leafAt] using hx)
        (by simpa [WTree.leafAt] using hy)
      refine ⟨⟨A, B ++ r.weights, by simp [WTree.weights, h1], by
        simp [WTree.mergeAt, WTree.weights, h2]⟩, ?_⟩
      intro d
      have := h3 (d + 1)
      simp only [WTree.mergeAt, WTree.costAt]
      linarith
    | true :: q, hx, hy =>
      obtain ⟨⟨A, B, h1, h2⟩, h3⟩ := ihr q x y (by simpa [WTree.leafAt] using hx)
        (by simpa [WTree.leafAt] using hy)
      refine ⟨⟨l.weights ++ A, B, by simp [WTree.weights, h1], by
        simp [WTree.mergeAt, WTree.weights, h2]⟩, ?_⟩
      intro d
      have := h3 (d + 1)
      simp only [WTree.mergeAt, WTree.costAt]
      linarith


theorem perm_middle_cancel {A B R : List Int} {u : Int}
    (h : (A ++ u :: B).Perm (u :: R)) : (A ++ B).Perm R :=
  (List.perm_middle.symm.trans h).cons_inv

/-- Exchange step: in any tree, the two least counts can be brought to two
leaves with the same parent at the greatest depth and merged, at a cost lower
by at least their sum. -/
theorem WTree.exchange (T : WTree) (a b : Int) (R : List Int)
    (hperm : T.weights.Perm (a :: b :: R)) (hab : a ≤ b) (hR : ∀ x ∈ R, b ≤ x) :
    ∃ T' : WTree, T'.weights.Perm ((a + b) :: R) ∧
      ∀ d, T'.costAt d + a + b ≤ T.costAt d := by
  have hmin : ∀ x ∈ T.weights, a ≤ x := by
    intro x hx
    rcases List.mem_cons.mp (hperm.subset hx) with h | h
    · exact le_of_eq h.symm
    · rcases List.mem_cons.mp h with h | h
      · rw [h]; exact hab
      · exact le_trans hab (hR x h)
  cases hT : T with
  | leaf w =>
    rw [hT] at hperm
    have := hperm.length_eq
    simp [WTree.weights] at this
  | node l r =>
    rw [← hT]
    obtain ⟨q, x, y, hq0, hq1, hD⟩ := T.exists_deepest_pair l r hT
    have hq01 : q ++ [false] ≠ q ++ [true] := by
      intro h
      have := List.append_cancel_left h
      simp at this
    -- where `a` and `b` stand
    obtain ⟨pa, hpa⟩ := T.exists_leafAt a (hperm.symm.subset (by simp))
    obtain ⟨pb, hpb, hpab⟩ : ∃ pb, T.leafAt pb = some b ∧ pb ≠ pa := by
      obtain ⟨A, B, h1, h2⟩ := T.weights_setLeaf pa a (b + 1) hpa
      have hAB : (A ++ B).Perm (b :: R) := perm_middle_cancel (h1 ▸ hperm)
      have hb : b ∈ (T.setLeaf pa (b + 1)).weights := by
        rw [h2]
        have : b ∈ A ++ B := hAB.symm.subset (by simp)
        rcases List.mem_append.mp this with h | h
        · exact List.mem_append.mpr (Or.inl h)
        · exact List.mem_append.mpr (Or.inr (List.mem_cons_of_mem _ h))
      obtain ⟨pb, hpb⟩ := (T.setLeaf pa (b + 1)).exists_leafAt b hb
      have hne : pb ≠ pa := by
        rintro rfl
        rw [T.leafAt_setLeaf_same pb a (b + 1) hpa] at hpb
        simp at hpb
      refine ⟨pb, ?_, hne⟩
      rw [← T.leafAt_setLeaf_other pa pb (b + 1) (fun h => hne h.symm)]
      exact hpb
    have hlen_a : pa.length ≤ q.length + 1 := hD ▸ T.leafAt_length_le pa a hpa
    have hlen_b : pb.length ≤ q.length + 1 := hD ▸ T.leafAt_length_le pb b hpb
    -- first exchange: `a` goes to the zero side of the deepest pair
    obtain ⟨hw1, hc1, h1q0, h1pa, h1other⟩ := T.swap_spec pa (q ++ [false]) a x hpa hq0
    generalize hT1 : (T.setLeaf pa x).setLeaf (q ++ [false]) a = T1 at hw1 hc1 h1q0 h1pa h1other
    have hax : a ≤ x := hmin x (T.leafAt_mem _ x hq0)
    obtain ⟨pb1, hpb1, hpb1q0, hlen_b1⟩ : ∃ pb1, T1.leafAt pb1 = some b ∧ pb1 ≠ q ++ [false] ∧
        pb1.length ≤ q.length + 1 := by
      by_cases h : pb = q ++ [false]
      · refine ⟨pa, ?_, fun hh => hpab (h.trans hh.symm), hlen_a⟩
        rw [h, hq0] at hpb
        cases hpb
        exact h1pa
      · exact ⟨pb, by rw [h1other pb hpab h]; exact hpb, h, hlen_b⟩
    obtain ⟨y1, hy1⟩ : ∃ y1, T1.leafAt (q ++ [true]) = some y1 := by
      by_cases h : q ++ [true] = pa
      · exact ⟨x, h ▸ h1pa⟩
      · exact ⟨y, by rw [h1other _ h (fun hh => hq01 hh.symm)]; exact hq1⟩
    have hby1 : b ≤ y1 := by
      obtain ⟨A, B, hA, hmem⟩ := T1.leafAt_two (q ++ [false]) (q ++ [true]) a y1 hq01 h1q0 hy1
      have hAB : (A ++ B).Perm (b :: R) := perm_middle_cancel (hA ▸ hw1.trans hperm)
      rcases List.mem_cons.mp (hAB.subset hmem) with h | h
      · exact le_of_eq h.symm
      · exact hR y1 h
    -- second exchange: `b` goes to the one side
    obtain ⟨hw2, hc2, h2q1, _, h2other⟩ := T1.swap_spec pb1 (q ++ [true]) b y1 hpb1 hy1
    generalize hT2 : (T1.setLeaf pb1 y1).setLeaf (q ++ [true]) b = T2 at hw2 hc2 h2q1 h2other
    have h2q0 : T2.leafAt (q ++ [false]) = some a := by
      rw [h2other _ (fun hh => hpb1q0 hh.symm) hq01]
      exact h1q0
    obtain ⟨⟨A, B, hA, hA'⟩, hcm⟩ := T2.mergeAt_spec q a b h2q0 h2q1
    refine ⟨T2.mergeAt q, ?_, ?_⟩
    · rw [hA']
      have h2 : (A ++ a :: b :: B).Perm (a :: b :: R) := hA ▸ (hw2.trans (hw1.trans hperm))
      have h3 : (A ++ b :: B).Perm (b :: R) := perm_middle_cancel h2
      have h4 : (A ++ B).Perm R := perm_middle_cancel h3
      exact List.perm_middle.trans (h4.cons _)
    · intro d
      have e1 := hc1 d
      have e2 := hc2 d
      have e3 := hcm d
      have n1 : 0 ≤ (x - a) * (((q ++ [false]).length : Int) - (pa.length : Int)) := by
        apply mul_nonneg
        · linarith
        · simp only [List.length_append, List.length_singleton]
          push_cast
          have : (pa.length : Int) ≤ (q.length : Int) + 1 := by exact_mod_cast hlen_a
          linarith
      have n2 : 0 ≤ (y1 - b) * (((q ++ [true]).length : Int) - (pb1.length : Int)) := by
        apply mul_nonneg
        · linarith
        · simp only [List.length_append, List.length_singleton]
          push_cast
          have : (pb1.length : Int) ≤ (q.length : Int) + 1 := by exact_mod_cast hlen_b1
          linarith
      linarith


/-! ## Optimality of the merged tree -/

theorem HuffmanNode.Exact.not_null {t : HuffmanNode} (h : t.Exact) : t.isNull = false := by
  cases t with
  | null => exact absurd h (by simp [HuffmanNode.Exact])
  | node _ _ _ _ => rfl

theorem exact_cases {c n : Int} {z o : HuffmanNode} (h : (HuffmanNode.node c n z o).Exact) :
    (z = .null ∧ o = .null) ∨
      ((z.isNull && o.isNull) = false ∧ n = z.count + o.count ∧ z.Exact ∧ o.Exact) := by
  unfold HuffmanNode.Exact at h
  rcases h with h | ⟨h1, h2, h3⟩
  · exact Or.inl h
  · exact Or.inr ⟨by simp [h2.not_null], h1, h2, h3⟩

theorem costAt_succ_of_exact (t : HuffmanNode) (hex : t.Exact) :
    ∀ d, t.costAt (d + 1) = t.costAt d + t.count := by
  induction t with
  | null => exact absurd hex (by simp [HuffmanNode.Exact])
  | node c n z o ihz iho =>
    intro d
    rcases exact_cases hex with ⟨rfl, rfl⟩ | ⟨hl, hn, hz, ho⟩
    · simp only [HuffmanNode.costAt, HuffmanNode.isNull, Bool.and_self, if_true,
        HuffmanNode.count]
      push_cast
      ring
    · simp only [HuffmanNode.costAt, hl, Bool.false_eq_true, if_false, HuffmanNode.count]
      rw [ihz hz (d + 1), iho ho (d + 1), hn]
      ring

theorem cost_join (k : Int) {a b : HuffmanNode} (ha : a.Exact) (hb : b.Exact) :
    (HuffmanNode.node NOT_A_CHAR k a b).cost = a.cost + b.cost + a.count + b.count := by
  simp only [HuffmanNode.cost, HuffmanNode.costAt, ha.not_null, Bool.false_and,
    Bool.false_eq_true, if_false]
  rw [costAt_succ_of_exact a ha 0, costAt_succ_of_exact b hb 0]
  ring

/-- One merge step on trees without overflow, with counts that are not negative
and a sum below 2^31: the `int` sum of the two counts is their sum, and the
queue after the step is again such a queue, with the same sum. -/
theorem merge_no_overflow {pq : List HuffmanNode} {a b : HuffmanNode} {rest : List HuffmanNode}
    (hperm : pq.Perm (a :: b :: rest)) (hex : ∀ t ∈ pq, t.Exact) (hnn : ∀ t ∈ pq, 0 ≤ t.count)
    (hsum : (pq.map HuffmanNode.count).sum < 2147483648) :
    toInt32 (a.count + b.count) = a.count + b.count ∧
    (∀ t ∈ HuffmanNode.node NOT_A_CHAR (toInt32 (a.count + b.count)) a b :: rest, t.Exact) ∧
    (∀ t ∈ HuffmanNode.node NOT_A_CHAR (toInt32 (a.count + b.count)) a b :: rest,
      0 ≤ t.count) ∧
    ((HuffmanNode.node NOT_A_CHAR (toInt32 (a.count + b.count)) a b :: rest).map
      HuffmanNode.count).sum = (pq.map HuffmanNode.count).sum := by
  have ha : a ∈ pq := hperm.symm.subset (by simp)
  have hb : b ∈ pq := hperm.symm.subset (by simp)
  have hrest : ∀ t ∈ rest, t ∈ pq := fun t ht => hperm.symm.subset (by simp [ht])
  have hs : (pq.map HuffmanNode.count).sum =
      a.count + b.count + (rest.map HuffmanNode.count).sum := by
    rw [(hperm.map HuffmanNode.count).sum_eq]
    simp
    ring
  have hrest0 : 0 ≤ (rest.map HuffmanNode.count).sum := by
    apply List.sum_nonneg
    intro x hx
    obtain ⟨t, ht, rfl⟩ := List.mem_map.mp hx
    exact hnn t (hrest t ht)
  have h0a := hnn a ha
  have h0b := hnn b hb
  have hw : toInt32 (a.count + b.count) = a.count + b.count :=
    toInt32_of_range (by linarith) (by linarith)
  refine ⟨hw, ?_, ?_, ?_⟩
  · intro t ht
    rcases List.mem_cons.mp ht with rfl | ht
    · unfold HuffmanNode.Exact
      exact Or.inr ⟨hw, hex a ha, hex b hb⟩
    · exact hex t (hrest t ht)
  · intro t ht
    rcases List.mem_cons.mp ht with rfl | ht
    · show 0 ≤ toInt32 (a.count + b.count)
      rw [hw]
      linarith
    · exact hnn t (hrest t ht)
  · have hc : (HuffmanNode.node NOT_A_CHAR (toInt32 (a.count + b.count)) a b).count =
        a.count + b.count := hw
    rw [List.map_cons, List.sum_cons, hc, hs]

/-- Without overflow the tree reached holds true sums at every node. -/
theorem Merged.exact {pq : List HuffmanNode} {r : HuffmanNode} (h : Merged pq r)
    (hex : ∀ t ∈ pq, t.Exact) (hnn : ∀ t ∈ pq, 0 ≤ t.count)
    (hsum : (pq.map HuffmanNode.count).sum < 2147483648) : r.Exact := by
  induction h with
  | done r => exact hex r (by simp)
  | step pq a b rest r hperm _ _ _ ih =>
    obtain ⟨_, h1, h2, h3⟩ := merge_no_overflow hperm hex hnn hsum
    exact ih h1 h2 (h3 ▸ hsum)

theorem WTree.weights_length_pos (T : WTree) : 0 < T.weights.length := by
  induction T with
  | leaf w => simp [WTree.weights]
  | node l r ihl _ =>
    simp only [WTree.weights, List.length_append]
    omega

theorem WTree.cost_single (T : WTree) (w : Int) (h : T.weights.Perm [w]) :
    T.costAt 0 = 0 := by
  cases T with
  | leaf v => simp [WTree.costAt]
  | node l r =>
    have hlen := h.length_eq
    have hl := l.weights_length_pos
    have hr := r.weights_length_pos
    simp only [WTree.weights, List.length_append, List.length_singleton] at hlen
    omega

/-- Without overflow, the tree reached by the merge process costs, beyond the
cost already inside the trees it started from, no more than any weighted tree
over their counts. -/
theorem Merged.optimal {pq : List HuffmanNode} {r : HuffmanNode} (h : Merged pq r)
    (hex : ∀ t ∈ pq, t.Exact) (hnn : ∀ t ∈ pq, 0 ≤ t.count)
    (hsum : (pq.map HuffmanNode.count).sum < 2147483648) :
    ∀ T : WTree, T.weights.Perm (pq.map HuffmanNode.count) →
      r.cost - (pq.map HuffmanNode.cost).sum ≤ T.costAt 0 := by
  induction h with
  | done r =>
    intro T hT
    have := T.cost_single r.count (by simpa using hT)
    simp [this]
  | step pq a b rest r hperm hab hrest _ ih =>
    intro T hT
    have ha : a.Exact := hex a (hperm.symm.subset (by simp))
    have hb : b.Exact := hex b (hperm.symm.subset (by simp))
    obtain ⟨hw, h1, h2, h3⟩ := merge_no_overflow hperm hex hnn hsum
    have hT' : T.weights.Perm (a.count :: b.count :: rest.map HuffmanNode.count) := by
      simpa using hT.trans (hperm.map HuffmanNode.count)
    obtain ⟨T', hw', hc'⟩ := T.exchange a.count b.count (rest.map HuffmanNode.count) hT' hab
      (by
        intro x hx
        obtain ⟨t, ht, rfl⟩ := List.mem_map.mp hx
        exact hrest t ht)
    have hc0 : (HuffmanNode.node NOT_A_CHAR (toInt32 (a.count + b.count)) a b).count =
        a.count + b.count := hw
    have := ih h1 h2 (h3 ▸ hsum) T' (by rw [List.map_cons, hc0]; exact hw')
    have hcost : (pq.map HuffmanNode.cost).sum =
        a.cost + b.cost + (rest.map HuffmanNode.cost).sum := by
      rw [(hperm.map HuffmanNode.cost).sum_eq]
      simp
      ring
    have hc := hc' 0
    simp only [List.map_cons, List.sum_cons, cost_join _ ha hb] at this
    rw [hcost]
    linarith

theorem costAt_of_leaves_nil (u : HuffmanNode) (h : u.leaves = []) :
    ∀ d, u.costAt d = 0 := by
  induction u with
  | null => intro d; rfl
  | node c n z o ihz iho =>
    intro d
    by_cases hl : (z.isNull && o.isNull) = true
    · simp [HuffmanNode.leaves, hl] at h
    · have hl' : (z.isNull && o.isNull) = false := by simpa using hl
      simp only [HuffmanNode.leaves, hl', Bool.false_eq_true, if_false,
        List.append_eq_nil] at h
      simp [HuffmanNode.costAt, hl', ihz h.1, iho h.2]

theorem WTree.costAt_mono (T : WTree) (hpos : ∀ w ∈ T.weights, 0 ≤ w) :
    ∀ d, T.costAt d ≤ T.costAt (d + 1) := by
  induction T with
  | leaf w =>
    intro d
    have := hpos w (by simp [WTree.weights])
    simp only [WTree.costAt]
    push_cast
    nlinarith
  | node l r ihl ihr =>
    intro d
    have hl := ihl (fun w hw => hpos w (by simp [WTree.weights, hw])) (d + 1)
    have hr := ihr (fun w hw => hpos w (by simp [WTree.weights, hw])) (d + 1)
    simp only [WTree.costAt]
    linarith

/-- Any tree of nodes with at least one leaf and counts that are not negative
costs at least as much as a weighted tree over the same counts (nodes with one
child only add depth). -/
theorem exists_wtree (u : HuffmanNode) :
    u.leaves ≠ [] → (∀ e ∈ u.leaves, 0 ≤ e.2) →
      ∀ d, ∃ T : WTree, T.weights = u.leaves.map Prod.snd ∧ T.costAt d ≤ u.costAt d := by
  induction u with
  | null => intro h; exact absurd rfl h
  | node c n z o ihz iho =>
    intro hne hpos d
    by_cases hl : (z.isNull && o.isNull) = true
    · exact ⟨.leaf n, by simp [WTree.weights, HuffmanNode.leaves, hl], by
        simp [WTree.costAt, HuffmanNode.costAt, hl]⟩
    · have hleaves : (HuffmanNode.node c n z o).leaves = z.leaves ++ o.leaves := by
        simp [HuffmanNode.leaves, hl]
      have hcost : (HuffmanNode.node c n z o).costAt d = z.costAt (d + 1) + o.costAt (d + 1) := by
        simp [HuffmanNode.costAt, hl]
      rw [hleaves] at hne hpos ⊢
      rw [hcost]
      by_cases hz : z.leaves = []
      · have ho : o.leaves ≠ [] := by
          intro h
          exact hne (by simp [hz, h])
        obtain ⟨T, hT, hc⟩ := iho ho (fun e he => hpos e (by simp [he])) (d + 1)
        refine ⟨T, by simp [hz, hT], ?_⟩
        have hmono := T.costAt_mono (by
          intro w hw
          rw [hT] at hw
          obtain ⟨e, he, rfl⟩ := List.mem_map.mp hw
          exact hpos e (by simp [he])) d
        rw [costAt_of_leaves_nil z hz]
        linarith
      · obtain ⟨Tz, hTz, hcz⟩ := ihz hz (fun e he => hpos e (by simp [he])) (d + 1)
        by_cases ho : o.leaves = []
        · refine ⟨Tz, by simp [ho, hTz], ?_⟩
          have hmono := Tz.costAt_mono (by
            intro w hw
            rw [hTz] at hw
            obtain ⟨e, he, rfl⟩ := List.mem_map.mp hw
            exact hpos e (by simp [he])) d
          rw [costAt_of_leaves_nil o ho]
          linarith
        · obtain ⟨To, hTo, hco⟩ := iho ho (fun e he => hpos e (by simp [he])) (d + 1)
          refine ⟨.node Tz To, by simp [WTree.weights, hTz, hTo], ?_⟩
          simp only [WTree.costAt]
          linarith

theorem seed_cost (m : hashmapF) :
    (((hashmapF.keys m).map (leafOf m)).map HuffmanNode.cost).sum = 0 := by
  apply List.sum_eq_zero
  intro x hx
  obtain ⟨t, ht, rfl⟩ := List.mem_map.mp hx
  obtain ⟨k, _, rfl⟩ := List.mem_map.mp ht
  simp [leafOf, HuffmanNode.cost, HuffmanNode.costAt, HuffmanNode.isNull]

theorem seed_exact (m : hashmapF) : ∀ t ∈ (hashmapF.keys m).map (leafOf m), t.Exact := by
  intro t ht
  obtain ⟨k, _, rfl⟩ := List.mem_map.mp ht
  simp [leafOf, HuffmanNode.Exact]

theorem seed_nonneg (m : hashmapF) (hm : (hashmapF.keys m).Nodup) (hpos : ∀ e ∈ m, 0 ≤ e.2) :
    ∀ t ∈ (hashmapF.keys m).map (leafOf m), 0 ≤ t.count := by
  intro t ht
  have : t.count ∈ ((hashmapF.keys m).map (leafOf m)).map HuffmanNode.count :=
    List.mem_map.mpr ⟨t, ht, rfl⟩
  rw [seed_counts m hm] at this
  obtain ⟨e, he, heq⟩ := List.mem_map.mp this
  rw [← heq]
  exact hpos e he

/-- Optimality of `buildEncodingTree`, for counts that are not negative and sum
to less than 2^31, against any tree of nodes with the same leaves. -/
theorem buildEncodingTree_optimal {H : HeapAlg} (hH : H.Lawful) (m : hashmapF)
    (hne : m ≠ []) (hm : (hashmapF.keys m).Nodup) (hpos : ∀ e ∈ m, 0 ≤ e.2)
    (hsum : (m.map Prod.snd).sum < 2147483648) :
    ∃ r, buildEncodingTree H m = some r ∧ r.leaves.Perm m ∧
      ∀ u : HuffmanNode, u.leaves.Perm m → r.cost ≤ u.cost := by
  obtain ⟨r, hr, hmerged⟩ := buildEncodingTree_merged hH m hne
  have hleaves : r.leaves.Perm m := by
    have := hmerged.leaves_perm (seed_full m)
    rwa [seed_leaves m hm] at this
  refine ⟨r, hr, hleaves, ?_⟩
  intro u hu
  have hune : u.leaves ≠ [] := by
    intro h
    rw [h] at hu
    exact hne (List.perm_nil.mp hu.symm)
  obtain ⟨T, hT, hc⟩ := exists_wtree u hune (fun e he => hpos e (hu.subset he)) 0
  have hTperm : T.weights.Perm (((hashmapF.keys m).map (leafOf m)).map HuffmanNode.count) := by
    rw [seed_counts m hm, hT]
    exact hu.map Prod.snd
  have := hmerged.optimal (seed_exact m) (seed_nonneg m hm hpos)
    (by rw [seed_counts m hm]; exact hsum) T hTperm
  rw [seed_cost] at this
  simp only [HuffmanNode.cost] at this ⊢
  linarith

/-! ## Trees built from a table -/

theorem two_le_length_of_mem {l : List Int} {a b : Int} (ha : a ∈ l) (hb : b ∈ l)
    (hab : a ≠ b) : 2 ≤ l.length := by
  match l, ha, hb with
  | [x], ha, hb =>
    simp only [List.mem_singleton] at ha hb
    exact absurd (ha.trans hb.symm) hab
  | _ :: _ :: _, _, _ => simp

/-- Facts about the tree of a table with unique keys that is not empty. -/
theorem buildEncodingTree_table {H : HeapAlg} (hH : H.Lawful) (m : hashmapF)
    (hne : m ≠ []) (hm : (hashmapF.keys m).Nodup) :
    ∃ r, buildEncodingTree H m = some r ∧ r.Full ∧ r.leaves.Perm m ∧
      toInt32 r.count = toInt32 (m.map Prod.snd).sum ∧
      (r.paths.map Prod.fst).Perm (hashmapF.keys m) ∧
      (2 ≤ m.length → r.isLeaf = false) := by
  obtain ⟨r, hr, hmerged⟩ := buildEncodingTree_merged hH m hne
  have hfull := hmerged.full (seed_full m)
  have hleaves : r.leaves.Perm m := by
    have := hmerged.leaves_perm (seed_full m)
    rwa [seed_leaves m hm] at this
  refine ⟨r, hr, hfull, hleaves, ?_, ?_, ?_⟩
  · rw [hmerged.count_mod, seed_counts m hm]
  · rw [paths_keys]
    exact hleaves.map Prod.fst
  · intro hlen
    obtain ⟨n, z, o, rfl, hz, _, _⟩ := hmerged.internal (seed_full m)
      (by simpa [hashmapF.keys] using hlen)
    simp [HuffmanNode.isLeaf, hz.ne_null]

theorem buildEncodingTree_nil (H : HeapAlg) : buildEncodingTree H [] = none := by
  simp [buildEncodingTree, seedQueue, hashmapF.keys, mergeLoop, priority_queue.size,
    priority_queue.top]

/-- The code table of the tree of a table without the key `NOT_A_CHAR` is the
table of the root-to-leaf paths. -/
theorem buildEncodingMap_table {H : HeapAlg} (hH : H.Lawful) (m : hashmapF)
    (hne : m ≠ []) (hm : (hashmapF.keys m).Nodup) (hnac : NOT_A_CHAR ∉ hashmapF.keys m) :
    ∃ r, buildEncodingTree H m = some r ∧ buildEncodingMap r = some r.paths ∧ r.Full ∧
      (r.paths.map Prod.fst).Nodup ∧ (∀ e ∈ r.paths, e.1 ≠ NOT_A_CHAR) ∧
      (r.paths.map Prod.fst).Perm (hashmapF.keys m) ∧
      (2 ≤ m.length → r.isLeaf = false) := by
  obtain ⟨r, hr, hfull, hleaves, _, hkeys, hinner⟩ := buildEncodingTree_table hH m hne hm
  have hnd : (r.paths.map Prod.fst).Nodup := hkeys.nodup_iff.mpr hm
  have hnac' : ∀ e ∈ r.paths, e.1 ≠ NOT_A_CHAR := by
    intro e he heq
    exact hnac (hkeys.subset (List.mem_map.mpr ⟨e, he, heq⟩))
  refine ⟨r, hr, ?_, hfull, hnd, hnac', hkeys, hinner⟩
  apply buildEncodingMap_spec r hfull
  · rw [← paths_keys]; exact hnd
  · intro e he heq
    have : e.1 ∈ r.paths.map Prod.fst := by
      rw [paths_keys]
      exact List.mem_map.mpr ⟨e, he, rfl⟩
    exact hnac (hkeys.subset (heq ▸ this))

theorem Merged.single {t r : HuffmanNode} (h : Merged [t] r) : r = t := by
  cases h with
  | done => rfl
  | step _ a b rest _ hperm _ _ _ =>
    have := hperm.length_eq
    simp at this

theorem buildFrequencyMap_facts (S : List Byte) :
    (hashmapF.keys (buildFrequencyMap S [])).Nodup ∧
    (∀ k, k ∈ hashmapF.keys (buildFrequencyMap S []) ↔
      k = PSEUDO_EOF ∨ ∃ c ∈ S, charToInt c = k) ∧
    (∀ c : Byte, c ∈ S → hashmapF.get (buildFrequencyMap S []) (charToInt c) = (S.count c : Int)) ∧
    hashmapF.get (buildFrequencyMap S []) PSEUDO_EOF = 1 ∧
    ((buildFrequencyMap S []).map Prod.snd).sum = (S.length : Int) + 1 := by
  obtain ⟨h1, h2, h3, h4, h5⟩ := countLoop_spec S [] (by simp [hashmapF.keys])
  rw [buildFrequencyMap_eq]
  refine ⟨hashmapF.nodup_keys_put _ _ _ h1, ?_, ?_, ?_, ?_⟩
  · intro k
    rw [hashmapF.mem_keys_put, h2 k]
    simp [hashmapF.keys]
  · intro c _
    rw [hashmapF.get_put, h3 c]
    simp [(charToInt_ne_PSEUDO_EOF c).symm, hashmapF.get]
  · rw [hashmapF.get_put]
    simp
  · rw [hashmapF.sum_put, h5, h4]
    simp [hashmapF.get]

theorem encode_output (input : List Byte) (em : hashmapE) :
    (encode input em true).output =
      bitsOf ((input.map charToInt).flatMap (hashmapE.index em) ++
        hashmapE.index em PSEUDO_EOF) := by
  have hmap : ∀ S : List Byte, S.flatMap (fun c => hashmapE.index em (charToInt c)) =
      (S.map charToInt).flatMap (hashmapE.index em) := by
    intro S
    induction S with
    | nil => rfl
    | cons c S ih => simp [List.flatMap_cons, ih]
  have h := encode_binary input em true
  rw [hmap] at h
  rw [← h]
  rfl

/-- Round trip for any table that covers the input: unique keys, the sentinel,
every symbol of the input, and not `NOT_A_CHAR`. -/
theorem roundtrip_table {H : HeapAlg} (hH : H.Lawful) (S : List Byte) (m : hashmapF)
    (hm : (hashmapF.keys m).Nodup) (hnac : NOT_A_CHAR ∉ hashmapF.keys m)
    (heof : PSEUDO_EOF ∈ hashmapF.keys m) (hS : ∀ c ∈ S, charToInt c ∈ hashmapF.keys m)
    (hlen : 2 ≤ m.length) :
    ∃ tree em, buildEncodingTree H m = some tree ∧ buildEncodingMap tree = some em ∧
      decode (encode S em true).output tree = some S := by
  have hne : m ≠ [] := by
    rintro rfl
    simp at hlen
  obtain ⟨r, hr, hem, hfull, hnd, hnac', hkeys, hinner⟩ := buildEncodingMap_table hH m hne hm hnac
  refine ⟨r, r.paths, hr, hem, ?_⟩
  have hdec := decodeLoop_encoded r hfull (hinner hlen) hnd hnac' (hkeys.symm.subset heof)
    (S.map charToInt) [] [] (by
      intro s hs
      obtain ⟨c, hc, rfl⟩ := List.mem_map.mp hs
      exact ⟨hkeys.symm.subset (hS c hc), charToInt_ne_PSEUDO_EOF c⟩)
  rw [List.append_nil] at hdec
  simp only [decode, decodeSymbols, encode_output, hdec, Option.map_some', List.nil_append,
    List.map_map]
  congr 1
  have hid : ∀ l : List Byte, l.map (intToChar ∘ charToInt) = l := by
    intro l
    induction l with
    | nil => rfl
    | cons c l ih => simp [ih, intToChar_charToInt]
  exact hid S

theorem roundtrip_core {H : HeapAlg} (hH : H.Lawful) (S : List Byte) :
    ∃ tree em, buildEncodingTree H (buildFrequencyMap S []) = some tree ∧
      buildEncodingMap tree = some em ∧
      decode (encode S em true).output tree = some S := by
  obtain ⟨hnd, hkeys, _, _, _⟩ := buildFrequencyMap_facts S
  have hnac : NOT_A_CHAR ∉ hashmapF.keys (buildFrequencyMap S []) := by
    rw [hkeys]
    rintro (h | ⟨c, _, hc⟩)
    · exact PSEUDO_EOF_ne_NOT_A_CHAR h.symm
    · exact charToInt_ne_NOT_A_CHAR c hc
  have heof : PSEUDO_EOF ∈ hashmapF.keys (buildFrequencyMap S []) := (hkeys _).mpr (Or.inl rfl)
  cases S with
  | nil =>
    have hm : buildFrequencyMap [] [] = [(PSEUDO_EOF, 1)] := rfl
    obtain ⟨r, hr, hmerged⟩ := buildEncodingTree_merged hH (buildFrequencyMap [] [])
      (by rw [hm]; simp)
    have hrt : r = .node PSEUDO_EOF 1 .null .null := by
      rw [hm] at hmerged
      exact hmerged.single
    subst hrt
    exact ⟨_, [(PSEUDO_EOF, [])], hr, by decide, by decide⟩
  | cons c S =>
    apply roundtrip_table hH (c :: S) _ hnd hnac heof
    · intro d hd
      exact (hkeys _).mpr (Or.inr ⟨d, hd, rfl⟩)
    · have h1 : charToInt c ∈ hashmapF.keys (buildFrequencyMap (c :: S) []) :=
        (hkeys _).mpr (Or.inr ⟨c, by simp, rfl⟩)
      have := two_le_length_of_mem h1 heof (charToInt_ne_PSEUDO_EOF c)
      simpa [hashmapF.keys] using this


/-! ## Single-symbol input -/

theorem encode_size (input : List Byte) (em : hashmapE) (makeFile : Bool) :
    (encode input em makeFile).size =
      toInt32 ((encode input em makeFile).binary.length : Int) := rfl

theorem flatMap_replicate_length {α β : Type} (f : α → List β) (a : α) (n : Nat) :
    ((List.replicate n a).flatMap f).length = n * (f a).length := by
  induction n with
  | zero => simp
  | succ n ih =>
    rw [List.replicate_succ, List.flatMap_cons, List.length_append, ih]
    ring

/-- The string `encode` returns for `n` copies of one byte has `n` times the
length of the byte's code, plus the length of the sentinel's code, characters.
-/
theorem encode_replicate_length (c : Byte) (n : Nat) (em : hashmapE) (cc ce : List Char)
    (hc : hashmapE.index em (charToInt c) = cc) (he : hashmapE.index em PSEUDO_EOF = ce) :
    (encode (List.replicate n c) em true).binary.length = n * cc.length + ce.length := by
  rw [encode_binary, List.length_append, flatMap_replicate_length, hc, he]

/-! ## Properties checked against the specification -/

/-- C1 (round trip). For every byte sequence `S`, the empty one included:
building the frequency table of `S`, the tree of the table and the code table
of the tree all succeed, and decoding the bits `encode` writes for `S`, with a
tree built again from the same table, returns exactly `S`. -/
theorem roundtrip (H : HeapAlg) (hH : H.Lawful) (S : List Byte) :
    ∃ tree em tree2, buildEncodingTree H (buildFrequencyMap S []) = some tree ∧
      buildEncodingMap tree = some em ∧
      buildEncodingTree H (buildFrequencyMap S []) = some tree2 ∧
      decode (encode S em true).output tree2 = some S := by
  obtain ⟨tree, em, h1, h2, h3⟩ := roundtrip_core hH S
  exact ⟨tree, em, tree, h1, h2, h1, h3⟩

theorem roundtrip_witness :
    ∃ tree em tree2,
      buildEncodingTree sortingHeap (buildFrequencyMap [97, 97, 98] []) = some tree ∧
      buildEncodingMap tree = some em ∧
      buildEncodingTree sortingHeap (buildFrequencyMap [97, 97, 98] []) = some tree2 ∧
      decode (encode [97, 97, 98] em true).output tree2 = some [97, 97, 98] :=
  roundtrip sortingHeap sortingHeap_lawful [97, 97, 98]

/-- C2 (prefix-free codes). For every frequency table with unique keys, none
of them `NOT_A_CHAR`: whenever the tree and its code table are returned, the code
of a symbol of the table is not a prefix of the code of a different symbol; and
both are returned as soon as the table is not empty. -/
theorem codes_prefix_free (H : HeapAlg) (hH : H.Lawful) (m : hashmapF)
    (hm : (hashmapF.keys m).Nodup) (hnac : NOT_A_CHAR ∉ hashmapF.keys m) :
    (m ≠ [] → ∃ tree em, buildEncodingTree H m = some tree ∧
      buildEncodingMap tree = some em) ∧
    (∀ tree em, buildEncodingTree H m = some tree → buildEncodingMap tree = some em →
      ∀ x y cx cy, x ≠ y → hashmapE.find em x = some cx → hashmapE.find em y = some cy →
        ¬ cx <+: cy) := by
  by_cases hne : m = []
  · subst hne
    refine ⟨fun h => absurd rfl h, ?_⟩
    intro tree em ht
    rw [buildEncodingTree_nil] at ht
    cases ht
  · obtain ⟨r, hr, hem, hfull, _, _, _, _⟩ := buildEncodingMap_table hH m hne hm hnac
    refine ⟨fun _ => ⟨r, r.paths, hr, hem⟩, ?_⟩
    intro tree em ht hem' x y cx cy hxy hx hy hpre
    have htree : tree = r := Option.some.inj (ht.symm.trans hr)
    subst htree
    have hemr : em = tree.paths := Option.some.inj (hem'.symm.trans hem)
    subst hemr
    exact hxy (paths_prefix_free tree hfull x y cx cy (hashmapE.mem_of_find hx)
      (hashmapE.mem_of_find hy) hpre).1

theorem codes_prefix_free_witness :
    ([(97, 2), (98, 1), (256, 1)] ≠ ([] : hashmapF) →
      ∃ tree em, buildEncodingTree sortingHeap [(97, 2), (98, 1), (256, 1)] = some tree ∧
        buildEncodingMap tree = some em) ∧
    (∀ tree em, buildEncodingTree sortingHeap [(97, 2), (98, 1), (256, 1)] = some tree →
      buildEncodingMap tree = some em →
      ∀ x y cx cy, x ≠ y → hashmapE.find em x = some cx → hashmapE.find em y = some cy →
        ¬ cx <+: cy) :=
  codes_prefix_free sortingHeap sortingHeap_lawful [(97, 2), (98, 1), (256, 1)]
    (by decide) (by decide)

/-- C3, as the code has it. For every frequency table that is not empty, with
unique keys and positive counts whose sum is below 2^31 (so that no `int` sum of
a merge step overflows), `buildEncodingTree` returns a tree whose leaves are the
entries of the table, each once, and whose weighted path length (sum over the
leaves of count times depth) is at most that of any tree of nodes whose leaves
are the entries of the table. -/
theorem huffman_optimal (H : HeapAlg) (hH : H.Lawful) (m : hashmapF) (hne : m ≠ [])
    (hm : (hashmapF.keys m).Nodup) (hpos : ∀ e ∈ m, 0 < e.2)
    (hsum : (m.map Prod.snd).sum < 2147483648) :
    ∃ r, buildEncodingTree H m = some r ∧ r.leaves.Perm m ∧
      ∀ u : HuffmanNode, u.leaves.Perm m → r.cost ≤ u.cost :=
  buildEncodingTree_optimal hH m hne hm (fun e he => le_of_lt (hpos e he)) hsum

theorem huffman_optimal_witness :
    ∃ r, buildEncodingTree sortingHeap [(97, 2), (98, 1), (256, 1)] = some r ∧
      r.leaves.Perm [(97, 2), (98, 1), (256, 1)] ∧
      ∀ u : HuffmanNode, u.leaves.Perm [(97, 2), (98, 1), (256, 1)] → r.cost ≤ u.cost :=
  huffman_optimal sortingHeap sortingHeap_lawful [(97, 2), (98, 1), (256, 1)]
    (by decide) (by decide) (by decide) (by decide)

/-- C3 as stated fails when a sum of counts leaves the range of `int`. On the
table 97:2^30, 98:2^30+1, 99:2^31-1, 100:2^30+2, 101:2^30+3 (counts positive
and pairwise different) the first merge step stores 2^30 + (2^30+1) as
-2^31+1, the least count of the queue from then on; the tree returned is a
chain with 97 and 98 at depth 4, 100 at depth 3, 101 at depth 2 and 99 at depth
1, of weighted path length 15*2^30+15, while the tree with 97, 98 at depth 3
and 99, 100, 101 at depth 2 has the same leaves and weighted path length
14*2^30+11. -/
theorem huffman_optimal_counterexample :
    buildEncodingTree sortingHeap
        [(97, 1073741824), (98, 1073741825), (99, 2147483647), (100, 1073741826),
          (101, 1073741827)] =
      some (.node NOT_A_CHAR (-2147483643)
        (.node NOT_A_CHAR 6
          (.node NOT_A_CHAR (-1073741821)
            (.node NOT_A_CHAR (-2147483647)
              (.node 97 1073741824 .null .null) (.node 98 1073741825 .null .null))
            (.node 100 1073741826 .null .null))
          (.node 101 1073741827 .null .null))
        (.node 99 2147483647 .null .null)) ∧
    (HuffmanNode.node NOT_A_CHAR (-2147483643)
        (.node NOT_A_CHAR 6
          (.node NOT_A_CHAR (-1073741821)
            (.node NOT_A_CHAR (-2147483647)
              (.node 97 1073741824 .null .null) (.node 98 1073741825 .null .null))
            (.node 100 1073741826 .null .null))
          (.node 101 1073741827 .null .null))
        (.node 99 2147483647 .null .null)).cost = 16106127375 ∧
    (HuffmanNode.node NOT_A_CHAR (-2147483643)
        (.node NOT_A_CHAR 0
          (.node NOT_A_CHAR (-2147483647)
            (.node 97 1073741824 .null .null) (.node 98 1073741825 .null .null))
          (.node 99 2147483647 .null .null))
        (.node NOT_A_CHAR (-2147483643)
          (.node 100 1073741826 .null .null) (.node 101 1073741827 .null .null))).leaves =
      [(97, 1073741824), (98, 1073741825), (99, 2147483647), (100, 1073741826),
        (101, 1073741827)] ∧
    (HuffmanNode.node NOT_A_CHAR (-2147483643)
        (.node NOT_A_CHAR 0
          (.node NOT_A_CHAR (-2147483647)
            (.node 97 1073741824 .null .null) (.node 98 1073741825 .null .null))
          (.node 99 2147483647 .null .null))
        (.node NOT_A_CHAR (-2147483643)
          (.node 100 1073741826 .null .null) (.node 101 1073741827 .null .null))).cost =
      15032385547 := by
  decide

/-- C4 (frequency counting). Started on an empty map, `buildFrequencyMap` yields
a table with unique keys, which are the symbols of `S` and `PSEUDO_EOF`; a symbol
of `S` is mapped to its number of occurrences in `S` and `PSEUDO_EOF` to 1. The
empty sequence yields the table holding only `PSEUDO_EOF`, and "aab" yields
a:2, b:1, EOF:1. -/
theorem buildFrequencyMap_counts (S : List Byte) :
    (hashmapF.keys (buildFrequencyMap S [])).Nodup ∧
    (∀ k, k ∈ hashmapF.keys (buildFrequencyMap S []) ↔
      k = PSEUDO_EOF ∨ ∃ c ∈ S, charToInt c = k) ∧
    (∀ c : Byte, c ∈ S →
      hashmapF.get (buildFrequencyMap S []) (charToInt c) = (S.count c : Int)) ∧
    hashmapF.get (buildFrequencyMap S []) PSEUDO_EOF = 1 ∧
    buildFrequencyMap [] [] = [(PSEUDO_EOF, 1)] ∧
    buildFrequencyMap [97, 97, 98] [] = [(97, 2), (98, 1), (PSEUDO_EOF, 1)] := by
  obtain ⟨h1, h2, h3, h4, _⟩ := buildFrequencyMap_facts S
  exact ⟨h1, h2, h3, h4, by decide, by decide⟩

/-- C6, as the code has it. For every frequency table that is not empty (keys
unique) with counts in the range of `int`, the count at the root returned by
`buildEncodingTree` is the sum of the counts of the table reduced to 32 bits, and
is that sum when the sum is in the range of `int`; for the table
`buildFrequencyMap` makes of a byte sequence `S`, that count is the length of `S`
plus one reduced to 32 bits, so the length plus one when this is below 2^31. -/
theorem root_count (H : HeapAlg) (hH : H.Lawful) (m : hashmapF) (S : List Byte)
    (hne : m ≠ []) (hm : (hashmapF.keys m).Nodup)
    (hrange : ∀ e ∈ m, -2147483648 ≤ e.2 ∧ e.2 < 2147483648) :
    (∃ r, buildEncodingTree H m = some r ∧ r.count = toInt32 (m.map Prod.snd).sum ∧
      (-2147483648 ≤ (m.map Prod.snd).sum → (m.map Prod.snd).sum < 2147483648 →
        r.count = (m.map Prod.snd).sum)) ∧
    (∃ r, buildEncodingTree H (buildFrequencyMap S []) = some r ∧
      r.count = toInt32 ((S.length : Int) + 1) ∧
      ((S.length : Int) + 1 < 2147483648 → r.count = (S.length : Int) + 1)) := by
  constructor
  · obtain ⟨r, hr, hmerged⟩ := buildEncodingTree_merged hH m hne
    have hseed : ∀ t ∈ (hashmapF.keys m).map (leafOf m),
        -2147483648 ≤ t.count ∧ t.count < 2147483648 := by
      intro t ht
      have : t.count ∈ ((hashmapF.keys m).map (leafOf m)).map HuffmanNode.count :=
        List.mem_map.mpr ⟨t, ht, rfl⟩
      rw [seed_counts m hm] at this
      obtain ⟨e, he, heq⟩ := List.mem_map.mp this
      rw [← heq]
      exact hrange e he
    have hr32 := hmerged.count_range hseed
    have hmod := hmerged.count_mod
    rw [seed_counts m hm, toInt32_of_range hr32.1 hr32.2] at hmod
    refine ⟨r, hr, hmod, ?_⟩
    intro h1 h2
    rw [hmod, toInt32_of_range h1 h2]
  · obtain ⟨hnd, hkeys, _, _, hsum⟩ := buildFrequencyMap_facts S
    have hne2 : buildFrequencyMap S [] ≠ [] := by
      intro h
      have : PSEUDO_EOF ∈ hashmapF.keys (buildFrequencyMap S []) := (hkeys _).mpr (Or.inl rfl)
      rw [h] at this
      simp [hashmapF.keys] at this
    obtain ⟨r, hr, hmerged⟩ := buildEncodingTree_merged hH _ hne2
    have hmod := hmerged.count_mod
    rw [seed_counts _ hnd, hsum] at hmod
    have hcount : r.count = toInt32 ((S.length : Int) + 1) := by
      cases S with
      | nil =>
        have hm0 : buildFrequencyMap [] [] = [(PSEUDO_EOF, 1)] := rfl
        rw [hm0] at hmerged
        have hrt : r = .node PSEUDO_EOF 1 .null .null := hmerged.single
        rw [hrt]
        decide
      | cons c S =>
        have hlen : 2 ≤ ((hashmapF.keys (buildFrequencyMap (c :: S) [])).map
            (leafOf (buildFrequencyMap (c :: S) []))).length := by
          have h1 : charToInt c ∈ hashmapF.keys (buildFrequencyMap (c :: S) []) :=
            (hkeys _).mpr (Or.inr ⟨c, by simp, rfl⟩)
          have h2 : PSEUDO_EOF ∈ hashmapF.keys (buildFrequencyMap (c :: S) []) :=
            (hkeys _).mpr (Or.inl rfl)
          simpa using two_le_length_of_mem h1 h2 (charToInt_ne_PSEUDO_EOF c)
        obtain ⟨n, z, o, hrt, _, _, hn⟩ := hmerged.internal (seed_full _) hlen
        have hr32 : -2147483648 ≤ r.count ∧ r.count < 2147483648 := by
          rw [hrt]
          show -2147483648 ≤ n ∧ n < 2147483648
          rw [hn]
          exact toInt32_range _
        rw [← hmod, toInt32_of_range hr32.1 hr32.2]
    refine ⟨r, hr, hcount, ?_⟩
    intro hlt
    rw [hcount, toInt32_of_range (by omega) hlt]

theorem root_count_witness :
    (∃ r, buildEncodingTree sortingHeap [(97, 5), (98, 2), (99, 1), (256, 1)] = some r ∧
      r.count =
        toInt32 (([(97, 5), (98, 2), (99, 1), (256, 1)] : hashmapF).map Prod.snd).sum ∧
      (-2147483648 ≤ (([(97, 5), (98, 2), (99, 1), (256, 1)] : hashmapF).map Prod.snd).sum →
        (([(97, 5), (98, 2), (99, 1), (256, 1)] : hashmapF).map Prod.snd).sum < 2147483648 →
        r.count = (([(97, 5), (98, 2), (99, 1), (256, 1)] : hashmapF).map Prod.snd).sum)) ∧
    (∃ r, buildEncodingTree sortingHeap (buildFrequencyMap [97, 97, 98] []) = some r ∧
      r.count = toInt32 ((([97, 97, 98] : List Byte).length : Int) + 1) ∧
      ((([97, 97, 98] : List Byte).length : Int) + 1 < 2147483648 →
        r.count = (([97, 97, 98] : List Byte).length : Int) + 1)) :=
  root_count sortingHeap sortingHeap_lawful [(97, 5), (98, 2), (99, 1), (256, 1)] [97, 97, 98]
    (by decide) (by decide) (by decide)

/-- C6 as stated fails when the sum of the counts leaves the range of `int`: on
the table 97:2147483647, EOF:1 the merge step stores 1 + 2147483647 in an
`int`, and the count at the root is -2147483648, not the sum 2147483648. -/
theorem root_count_counterexample :
    buildEncodingTree sortingHeap [(97, 2147483647), (256, 1)] =
      some (.node NOT_A_CHAR (-2147483648)
        (.node 256 1 .null .null) (.node 97 2147483647 .null .null)) ∧
    (HuffmanNode.node NOT_A_CHAR (-2147483648)
        (.node 256 1 .null .null) (.node 97 2147483647 .null .null)).count = -2147483648 ∧
    (([(97, 2147483647), (256, 1)] : hashmapF).map Prod.snd).sum = 2147483648 := by
  decide

/-- C7, as the code has it. For every byte sequence and every code table that
has an entry for each symbol of the sequence and for the sentinel, `encode`
returns the codes of the symbols in order, followed by the sentinel's code; the
bits written are those of the string; `size`, an `int`, is the length of that
string reduced to 32 bits, and is that length, the sum of the lengths of the
codes of the symbols plus the length of the sentinel's code, when the length is
below 2^31. -/
theorem encode_concat (input : List Byte) (em : hashmapE) (code : Int → List Char)
    (hcover : ∀ c ∈ input, hashmapE.find em (charToInt c) = some (code (charToInt c)))
    (heof : hashmapE.find em PSEUDO_EOF = some (code PSEUDO_EOF)) :
    (encode input em true).binary =
      input.flatMap (fun c => code (charToInt c)) ++ code PSEUDO_EOF ∧
    ((encode input em true).binary.length : Int) =
      ((input.map (fun c => ((code (charToInt c)).length : Int))).sum +
        ((code PSEUDO_EOF).length : Int)) ∧
    (encode input em true).size = toInt32 ((encode input em true).binary.length : Int) ∧
    (((encode input em true).binary.length : Int) < 2147483648 →
      (encode input em true).size = ((encode input em true).binary.length : Int) ∧
      (encode input em true).size =
        ((input.map (fun c => ((code (charToInt c)).length : Int))).sum +
          ((code PSEUDO_EOF).length : Int))) ∧
    (encode input em true).output = bitsOf (encode input em true).binary ∧
    (encode input em false).binary = (encode input em true).binary ∧
    (encode input em false).size = (encode input em true).size := by
  have hbin : (encode input em true).binary =
      input.flatMap (fun c => code (charToInt c)) ++ code PSEUDO_EOF := by
    rw [encode_binary]
    have h1 : hashmapE.index em PSEUDO_EOF = code PSEUDO_EOF := by
      simp [hashmapE.index, heof]
    have h2 : ∀ l : List Byte, (∀ c ∈ l, c ∈ input) →
        l.flatMap (fun c => hashmapE.index em (charToInt c)) =
          l.flatMap (fun c => code (charToInt c)) := by
      intro l
      induction l with
      | nil => intro _; rfl
      | cons c l ih =>
        intro hl
        have hc : hashmapE.index em (charToInt c) = code (charToInt c) := by
          simp [hashmapE.index, hcover c (hl c (by simp))]
        simp [List.flatMap_cons, hc, ih (fun d hd => hl d (by simp [hd]))]
    rw [h1, h2 input (fun _ h => h)]
  have hlen : ∀ l : List Byte, ((l.flatMap (fun c => code (charToInt c))).length : Int) =
      (l.map (fun c => ((code (charToInt c)).length : Int))).sum := by
    intro l
    induction l with
    | nil => rfl
    | cons c l ih =>
      simp only [List.flatMap_cons, List.length_append, List.map_cons, List.sum_cons]
      push_cast
      rw [ih]
  have hsize : (encode input em true).size =
      toInt32 ((encode input em true).binary.length : Int) := rfl
  have hsum : ((encode input em true).binary.length : Int) =
      ((input.map (fun c => ((code (charToInt c)).length : Int))).sum +
        ((code PSEUDO_EOF).length : Int)) := by
    rw [hbin, List.length_append]
    push_cast
    rw [hlen]
  refine ⟨hbin, hsum, hsize, ?_, rfl, rfl, rfl⟩
  intro hlt
  have hexact : (encode input em true).size = ((encode input em true).binary.length : Int) := by
    rw [hsize]
    exact toInt32_of_range (by omega) hlt
  exact ⟨hexact, hexact.trans hsum⟩

set_option maxRecDepth 8000 in
theorem encode_concat_witness :
    (encode [97, 97, 98] [(97, ['0']), (98, ['1', '0']), (256, ['1', '1'])] true).binary =
      ([97, 97, 98] : List Byte).flatMap (fun c =>
        hashmapE.index [(97, ['0']), (98, ['1', '0']), (256, ['1', '1'])] (charToInt c)) ++
        hashmapE.index [(97, ['0']), (98, ['1', '0']), (256, ['1', '1'])] PSEUDO_EOF ∧
    ((encode [97, 97, 98] [(97, ['0']), (98, ['1', '0']), (256, ['1', '1'])]
        true).binary.length : Int) =
      ((([97, 97, 98] : List Byte).map (fun c =>
        ((hashmapE.index [(97, ['0']), (98, ['1', '0']), (256, ['1', '1'])]
          (charToInt c)).length : Int))).sum +
        ((hashmapE.index [(97, ['0']), (98, ['1', '0']), (256, ['1', '1'])]
          PSEUDO_EOF).length : Int)) ∧
    (encode [97, 97, 98] [(97, ['0']), (98, ['1', '0']), (256, ['1', '1'])] true).size =
      toInt32 ((encode [97, 97, 98] [(97, ['0']), (98, ['1', '0']), (256, ['1', '1'])]
        true).binary.length : Int) ∧
    (((encode [97, 97, 98] [(97, ['0']), (98, ['1', '0']), (256, ['1', '1'])]
        true).binary.length : Int) < 2147483648 →
      (encode [97, 97, 98] [(97, ['0']), (98, ['1', '0']), (256, ['1', '1'])] true).size =
        ((encode [97, 97, 98] [(97, ['0']), (98, ['1', '0']), (256, ['1', '1'])]
          true).binary.length : Int) ∧
      (encode [97, 97, 98] [(97, ['0']), (98, ['1', '0']), (256, ['1', '1'])] true).size =
        ((([97, 97, 98] : List Byte).map (fun c =>
          ((hashmapE.index [(97, ['0']), (98, ['1', '0']), (256, ['1', '1'])]
            (charToInt c)).length : Int))).sum +
          ((hashmapE.index [(97, ['0']), (98, ['1', '0']), (256, ['1', '1'])]
            PSEUDO_EOF).length : Int))) ∧
    (encode [97, 97, 98] [(97, ['0']), (98, ['1', '0']), (256, ['1', '1'])] true).output =
      bitsOf (encode [97, 97, 98] [(97, ['0']), (98, ['1', '0']), (256, ['1', '1'])]
        true).binary ∧
    (encode [97, 97, 98] [(97, ['0']), (98, ['1', '0']), (256, ['1', '1'])] false).binary =
      (encode [97, 97, 98] [(97, ['0']), (98, ['1', '0']), (256, ['1', '1'])] true).binary ∧
    (encode [97, 97, 98] [(97, ['0']), (98, ['1', '0']), (256, ['1', '1'])] false).size =
      (encode [97, 97, 98] [(97, ['0']), (98, ['1', '0']), (256, ['1', '1'])] true).size :=
  encode_concat [97, 97, 98] [(97, ['0']), (98, ['1', '0']), (256, ['1', '1'])]
    (hashmapE.index [(97, ['0']), (98, ['1', '0']), (256, ['1', '1'])])
    (by decide) (by decide)

/-- C7 as stated fails when the string has 2^31 characters or more: `size` is
an `int` and takes the length reduced to 32 bits. For 2147483647 copies of the
byte 97 and the table 97:"0", EOF:"1" the string has 2147483648 characters
and `size` is -2147483648. -/
theorem encode_concat_counterexample :
    ((encode (List.replicate 2147483647 (97 : Byte)) [(97, ['0']), (256, ['1'])]
      true).binary.length : Int) = 2147483648 ∧
    (encode (List.replicate 2147483647 (97 : Byte)) [(97, ['0']), (256, ['1'])] true).size =
      -2147483648 := by
  have hlen := encode_replicate_length (97 : Byte) 2147483647 [(97, ['0']), (256, ['1'])] ['0']
    ['1'] (by decide) (by decide)
  have hsize := encode_size (List.replicate 2147483647 (97 : Byte))
    [(97, ['0']), (256, ['1'])] true
  rw [hlen] at hsize
  refine ⟨?_, ?_⟩
  · rw [hlen]
    decide
  · rw [hsize]
    decide


/-- C8 (the decoder stops at the sentinel). For the tree of a table with unique
keys and at least two entries, `PSEUDO_EOF` among them, and every bit sequence:
the symbols `decode` appends never include the sentinel; when the loop is left
on the sentinel after the bits `B1`, decoding `B1` followed by any further bits
`B2` gives the result of decoding `B1`. When no key is `NOT_A_CHAR`, decoding
returns on every bit sequence and the sentinel can be reached. -/
theorem decode_stops_at_sentinel (H : HeapAlg) (hH : H.Lawful) (m : hashmapF)
    (hm : (hashmapF.keys m).Nodup) (hlen : 2 ≤ m.length)
    (heof : PSEUDO_EOF ∈ hashmapF.keys m) :
    ∃ tree, buildEncodingTree H m = some tree ∧
      (∀ B out, decodeSymbols B tree = some out → PSEUDO_EOF ∉ out) ∧
      (∀ B1 B2 out, decodeLoop tree B1 tree [] = some ⟨out, [], true⟩ →
        decodeSymbols B1 tree = some out ∧ decodeSymbols (B1 ++ B2) tree = some out ∧
          decode (B1 ++ B2) tree = decode B1 tree) ∧
      (NOT_A_CHAR ∉ hashmapF.keys m →
        (∀ B, ∃ out, decodeSymbols B tree = some out) ∧
          ∃ B1, decodeLoop tree B1 tree [] = some ⟨[], [], true⟩) := by
  have hne : m ≠ [] := by
    rintro rfl
    simp at hlen
  obtain ⟨r, hr, hfull, _, _, hkeys, hinner⟩ := buildEncodingTree_table hH m hne hm
  refine ⟨r, hr, ?_, ?_, ?_⟩
  · intro B out hout
    simp only [decodeSymbols, Option.map_eq_some'] at hout
    obtain ⟨run, hrun, rfl⟩ := hout
    exact decodeLoop_no_sentinel r B r [] run hrun (by simp)
  · intro B1 B2 out h1
    have h2 := decodeLoop_sentinel_stop r B1 B2 r [] out [] h1
    have e1 : decodeSymbols B1 r = some out := by simp [decodeSymbols, h1]
    have e2 : decodeSymbols (B1 ++ B2) r = some out := by simp [decodeSymbols, h2]
    exact ⟨e1, e2, by simp [decode, e1, e2]⟩
  · intro hnac
    have hnd : (r.paths.map Prod.fst).Nodup := hkeys.nodup_iff.mpr hm
    have hnac' : ∀ e ∈ r.paths, e.1 ≠ NOT_A_CHAR := by
      intro e he heq
      exact hnac (hkeys.subset (List.mem_map.mpr ⟨e, he, heq⟩))
    constructor
    · intro B
      obtain ⟨run, _, hrun, _⟩ := decodeLoop_account r hfull (hinner hlen) hnd hnac' B []
      exact ⟨run.decodedString, by simp [decodeSymbols, hrun]⟩
    · have := decodeLoop_encoded r hfull (hinner hlen) hnd hnac' (hkeys.symm.subset heof)
        [] [] [] (by simp)
      exact ⟨_, this⟩

theorem decode_stops_at_sentinel_witness :
    ∃ tree, buildEncodingTree sortingHeap [(97, 2), (98, 1), (256, 1)] = some tree ∧
      (∀ B out, decodeSymbols B tree = some out → PSEUDO_EOF ∉ out) ∧
      (∀ B1 B2 out, decodeLoop tree B1 tree [] = some ⟨out, [], true⟩ →
        decodeSymbols B1 tree = some out ∧ decodeSymbols (B1 ++ B2) tree = some out ∧
          decode (B1 ++ B2) tree = decode B1 tree) ∧
      (NOT_A_CHAR ∉ hashmapF.keys [(97, 2), (98, 1), (256, 1)] →
        (∀ B, ∃ out, decodeSymbols B tree = some out) ∧
          ∃ B1, decodeLoop tree B1 tree [] = some ⟨[], [], true⟩) :=
  decode_stops_at_sentinel sortingHeap sortingHeap_lawful [(97, 2), (98, 1), (256, 1)]
    (by decide) (by decide) (by decide)

/-- C9, as the code has it. For the tree of a table with unique keys, at least
two entries and no key `NOT_A_CHAR`, and every bit sequence `B`: the loop of
`decode` returns; when it was not left on the sentinel, every bit was read, and
`B` is the codes of the appended symbols, in order, followed by a proper prefix
of a code; each appended symbol is a key of the table other than the sentinel.
So exactly the symbols of the complete codewords are returned and nothing is
appended for the incomplete last one. -/
theorem decode_truncated (H : HeapAlg) (hH : H.Lawful) (m : hashmapF)
    (hm : (hashmapF.keys m).Nodup) (hlen : 2 ≤ m.length)
    (hnac : NOT_A_CHAR ∉ hashmapF.keys m) :
    ∃ tree em, buildEncodingTree H m = some tree ∧ buildEncodingMap tree = some em ∧
      ∀ B, ∃ run, decodeLoop tree B tree [] = some run ∧
        decodeSymbols B tree = some run.decodedString ∧
        (run.atSentinel = false →
          run.input = [] ∧
          (∃ rem, B = bitsOf (run.decodedString.flatMap (hashmapE.index em)) ++ rem ∧
            ∃ x code, hashmapE.find em x = some code ∧ rem <+: bitsOf code ∧
              rem ≠ bitsOf code) ∧
          ∀ s ∈ run.decodedString, s ∈ hashmapF.keys m ∧ s ≠ PSEUDO_EOF) := by
  have hne : m ≠ [] := by
    rintro rfl
    simp at hlen
  obtain ⟨r, hr, hem, hfull, hnd, hnac', hkeys, hinner⟩ := buildEncodingMap_table hH m hne hm hnac
  refine ⟨r, r.paths, hr, hem, ?_⟩
  intro B
  obtain ⟨run, syms, hrun, hdec, hsyms, hfalse, _⟩ :=
    decodeLoop_account r hfull (hinner hlen) hnd hnac' B []
  have hdec' : run.decodedString = syms := by simpa using hdec
  refine ⟨run, hrun, by simp [decodeSymbols, hrun], ?_⟩
  intro hat
  obtain ⟨hin, rem, hB, x, p, hp, hpre, hne'⟩ := hfalse hat
  refine ⟨hin, ⟨rem, by rw [hdec']; exact hB, x, p,
    hashmapE.find_eq_some_of_mem hnd hp, hpre, hne'⟩, ?_⟩
  intro s hs
  rw [hdec'] at hs
  exact ⟨hkeys.subset (hsyms s hs).1, (hsyms s hs).2⟩

theorem decode_truncated_witness :
    ∃ tree em, buildEncodingTree sortingHeap [(97, 2), (98, 1), (256, 1)] = some tree ∧
      buildEncodingMap tree = some em ∧
      ∀ B, ∃ run, decodeLoop tree B tree [] = some run ∧
        decodeSymbols B tree = some run.decodedString ∧
        (run.atSentinel = false →
          run.input = [] ∧
          (∃ rem, B = bitsOf (run.decodedString.flatMap (hashmapE.index em)) ++ rem ∧
            ∃ x code, hashmapE.find em x = some code ∧ rem <+: bitsOf code ∧
              rem ≠ bitsOf code) ∧
          ∀ s ∈ run.decodedString,
            s ∈ hashmapF.keys [(97, 2), (98, 1), (256, 1)] ∧ s ≠ PSEUDO_EOF) :=
  decode_truncated sortingHeap sortingHeap_lawful [(97, 2), (98, 1), (256, 1)]
    (by decide) (by decide) (by decide)

/-- C9 as stated fails on two kinds of trees `buildEncodingTree` returns. The tree
of a table with one entry is a single leaf, and on it `decode` dereferences
`nullptr` at the first bit, whether the entry is a byte (so that no sentinel can
be reached) or the sentinel itself (the table of the empty input). A leaf
carrying `NOT_A_CHAR` is taken for an inner node, and the bit read after it is
reached dereferences `nullptr` too. -/
theorem decode_truncated_counterexample :
    buildEncodingTree sortingHeap [(97, 1)] = some (.node 97 1 .null .null) ∧
    decode [false] (.node 97 1 .null .null) = none ∧
    buildEncodingTree sortingHeap (buildFrequencyMap [] []) =
      some (.node PSEUDO_EOF 1 .null .null) ∧
    decode [false] (.node PSEUDO_EOF 1 .null .null) = none ∧
    buildEncodingTree sortingHeap [(97, 1), (NOT_A_CHAR, 2)] =
      some (.node NOT_A_CHAR 3 (.node 97 1 .null .null) (.node NOT_A_CHAR 2 .null .null)) ∧
    decode [true, false]
      (.node NOT_A_CHAR 3 (.node 97 1 .null .null) (.node NOT_A_CHAR 2 .null .null)) = none := by
  decide

theorem inner_of_full {r : HuffmanNode} (hfull : r.Full) (hinner : r.isLeaf = false) :
    ∃ n zero one, r = .node NOT_A_CHAR n zero one ∧ zero.Full ∧ one.Full ∧
      n = toInt32 (zero.count + one.count) := by
  cases r with
  | null => exact absurd hfull (by simp [HuffmanNode.Full])
  | node c n z o =>
    rcases full_cases hfull with ⟨rfl, rfl⟩ | ⟨_, rfl, hn, hz, ho⟩
    · simp [HuffmanNode.isLeaf, HuffmanNode.isNull] at hinner
    · exact ⟨n, z, o, rfl, hz, ho, hn⟩

theorem ne_null_of_full {t : HuffmanNode} (h : t.Full) : t ≠ .null := by
  rintro rfl
  simp [HuffmanNode.Full] at h

theorem two_le_length_buildFrequencyMap (S : List Byte) (hS : S ≠ []) :
    2 ≤ (buildFrequencyMap S []).length := by
  obtain ⟨_, hkeys, _, _, _⟩ := buildFrequencyMap_facts S
  cases S with
  | nil => exact absurd rfl hS
  | cons c S =>
    have h1 : charToInt c ∈ hashmapF.keys (buildFrequencyMap (c :: S) []) :=
      (hkeys _).mpr (Or.inr ⟨c, by simp, rfl⟩)
    have h2 : PSEUDO_EOF ∈ hashmapF.keys (buildFrequencyMap (c :: S) []) :=
      (hkeys _).mpr (Or.inl rfl)
    have := two_le_length_of_mem h1 h2 (charToInt_ne_PSEUDO_EOF c)
    simpa [hashmapF.keys] using this

/-- C11, as the code has it. For the frequency table `buildFrequencyMap` makes
of a byte source that is not empty, `buildEncodingTree` returns the result of a
merge step: a node carrying `NOT_A_CHAR` with two children, neither of them
`nullptr`, and the `int` sum of their counts. -/
theorem merged_root (H : HeapAlg) (hH : H.Lawful) (S : List Byte) (hS : S ≠ []) :
    ∃ n zero one,
      buildEncodingTree H (buildFrequencyMap S []) = some (.node NOT_A_CHAR n zero one) ∧
      zero ≠ .null ∧ one ≠ .null ∧ n = toInt32 (zero.count + one.count) := by
  obtain ⟨hnd, _, _, _, _⟩ := buildFrequencyMap_facts S
  have hlen := two_le_length_buildFrequencyMap S hS
  have hne : buildFrequencyMap S [] ≠ [] := by
    intro h
    rw [h] at hlen
    simp at hlen
  obtain ⟨r, hr, hfull, _, _, _, hinner⟩ := buildEncodingTree_table hH _ hne hnd
  obtain ⟨n, z, o, rfl, hz, ho, hn⟩ := inner_of_full hfull (hinner hlen)
  exact ⟨n, z, o, hr, ne_null_of_full hz, ne_null_of_full ho, hn⟩

theorem merged_root_witness :
    ∃ n zero one,
      buildEncodingTree sortingHeap (buildFrequencyMap [97, 97, 98] []) =
        some (.node NOT_A_CHAR n zero one) ∧
      zero ≠ .null ∧ one ≠ .null ∧ n = toInt32 (zero.count + one.count) :=
  merged_root sortingHeap sortingHeap_lawful [97, 97, 98] (by decide)

/-- C11 as stated fails on the empty source: its table holds the sentinel alone,
no merge step runs, and the tree returned is the single leaf of the sentinel. -/
theorem merged_root_counterexample :
    buildFrequencyMap [] [] = [(PSEUDO_EOF, 1)] ∧
    mergeLoop sortingHeap 1 (seedQueue sortingHeap (buildFrequencyMap [] [])) =
      some [.node PSEUDO_EOF 1 .null .null] ∧
    buildEncodingTree sortingHeap (buildFrequencyMap [] []) =
      some (.node PSEUDO_EOF 1 .null .null) := by
  decide

/-- C12, as the code has it. On an empty frequency table `buildEncodingTree`
raises no error: no leaf is pushed, the merge loop is left at once with the
queue empty, and the value returned is `pq.top()` of the empty queue, which is
undefined. -/
theorem buildEncodingTree_empty_table (H : HeapAlg) :
    seedQueue H [] = [] ∧
    mergeLoop H (priority_queue.size (seedQueue H [])) (seedQueue H []) = some [] ∧
    buildEncodingTree H [] = priority_queue.top [] ∧
    priority_queue.top [] = none := by
  refine ⟨rfl, ?_, ?_, rfl⟩
  · simp [seedQueue, hashmapF.keys, mergeLoop, priority_queue.size]
  · simp [buildEncodingTree, seedQueue, hashmapF.keys, mergeLoop, priority_queue.size]

/-- C12 as stated fails: on the empty table the function goes on to read the top
of the empty queue, and nothing but that undefined read comes out. -/
theorem buildEncodingTree_empty_table_counterexample :
    mergeLoop sortingHeap 0 (seedQueue sortingHeap []) = some [] ∧
    buildEncodingTree sortingHeap [] = priority_queue.top [] ∧
    buildEncodingTree sortingHeap [] = none := by
  decide

/-! ## The name of the decompressed file -/

theorem string_find_append (pre rest : List Char) (ch : Char) (hpre : ch ∉ pre) :
    string_find (pre ++ ch :: rest) ch = some pre.length := by
  induction pre with
  | nil => simp [string_find]
  | cons a pre ih =>
    have h : ¬ ch = a ∧ ch ∉ pre := by simpa using hpre
    have hne : a ≠ ch := fun hh => h.1 hh.symm
    simp [string_find, hne, ih h.2]

/-- The output name is what stands before the first `'.'` of the file name,
followed by `"_unc.txt"`. -/
theorem decompress_outputName_cut (pre rest : List Char) (hpre : '.' ∉ pre) :
    decompress_outputName (pre ++ '.' :: rest) =
      some (pre ++ ['_', 'u', 'n', 'c', '.', 't', 'x', 't']) := by
  have hdrop : List.drop (pre.length + (pre.length + (rest.length + 1)))
      (pre ++ '.' :: rest) = [] := by
    apply List.drop_eq_nil_of_le
    simp only [List.length_append, List.length_cons]
    omega
  simp only [decompress_outputName, string_find_append pre rest '.' hpre, string_erase,
    List.length_append, List.length_cons]
  rw [if_pos (by omega), hdrop]
  simp

/-- C14, as the code has it. For every file name `base ++ ".txt.huf"` whose
`base` holds no `'.'`, the name of the file `decompress` writes to is
`base ++ "_unc.txt"` ("example.txt.huf" gives "example_unc.txt"). -/
theorem decompress_name (base : List Char) (hbase : '.' ∉ base) :
    decompress_outputName (base ++ ['.', 't', 'x', 't', '.', 'h', 'u', 'f']) =
      some (base ++ ['_', 'u', 'n', 'c', '.', 't', 'x', 't']) :=
  decompress_outputName_cut base ['t', 'x', 't', '.', 'h', 'u', 'f'] hbase

theorem decompress_name_witness :
    decompress_outputName
        (['e', 'x', 'a', 'm', 'p', 'l', 'e'] ++ ['.', 't', 'x', 't', '.', 'h', 'u', 'f']) =
      some (['e', 'x', 'a', 'm', 'p', 'l', 'e'] ++ ['_', 'u', 'n', 'c', '.', 't', 'x', 't']) :=
  decompress_name ['e', 'x', 'a', 'm', 'p', 'l', 'e'] (by decide)

/-- C14 as stated fails when `base` holds a `'.'`: the name is cut at its first
`'.'`, so "a.b.txt.huf" gives "a_unc.txt", not "a.b_unc.txt", and
"./example.txt.huf" gives "_unc.txt". -/
theorem decompress_name_counterexample :
    decompress_outputName (['a', '.', 'b'] ++ ['.', 't', 'x', 't', '.', 'h', 'u', 'f']) =
      some ['a', '_', 'u', 'n', 'c', '.', 't', 'x', 't'] ∧
    decompress_outputName (['a', '.', 'b'] ++ ['.', 't', 'x', 't', '.', 'h', 'u', 'f']) ≠
      some (['a', '.', 'b'] ++ ['_', 'u', 'n', 'c', '.', 't', 'x', 't']) ∧
    decompress_outputName
        (['.', '/', 'e', 'x', 'a', 'm', 'p', 'l', 'e'] ++
          ['.', 't', 'x', 't', '.', 'h', 'u', 'f']) =
      some ['_', 'u', 'n', 'c', '.', 't', 'x', 't'] := by
  decide


/-! ## Every node of the returned tree -/

/-- A property of nodes that holds in the trees the merge process starts from
and for each node a merge step makes holds for every node of the tree reached.
-/
theorem Merged.forall_subtrees (P : HuffmanNode → Prop)
    (hjoin : ∀ a b : HuffmanNode, a ≠ .null → b ≠ .null → a.count ≤ b.count →
      P (.node NOT_A_CHAR (toInt32 (a.count + b.count)) a b))
    {pq : List HuffmanNode} {r : HuffmanNode} (h : Merged pq r)
    (hnn : ∀ t ∈ pq, t ≠ .null) (hpq : ∀ t ∈ pq, ∀ x ∈ t.subtrees, P x) :
    ∀ x ∈ r.subtrees, P x := by
  induction h with
  | done r => exact hpq r (by simp)
  | step pq a b rest r hperm hab _ _ ih =>
    have ha : a ∈ pq := hperm.symm.subset (by simp)
    have hb : b ∈ pq := hperm.symm.subset (by simp)
    apply ih
    · intro t ht
      rcases List.mem_cons.mp ht with rfl | ht
      · simp
      · exact hnn t (hperm.symm.subset (by simp [ht]))
    · intro t ht x hx
      rcases List.mem_cons.mp ht with rfl | ht
      · simp only [HuffmanNode.subtrees, List.mem_cons, List.mem_append] at hx
        rcases hx with rfl | hx | hx
        · exact hjoin a b (hnn a ha) (hnn b hb) hab
        · exact hpq a ha x hx
        · exact hpq b hb x hx
      · exact hpq t (hperm.symm.subset (by simp [ht])) x hx

theorem seed_ne_null (m : hashmapF) : ∀ t ∈ (hashmapF.keys m).map (leafOf m), t ≠ .null := by
  intro t ht
  obtain ⟨k, _, rfl⟩ := List.mem_map.mp ht
  simp [leafOf]

theorem seed_subtrees (m : hashmapF) :
    ∀ t ∈ (hashmapF.keys m).map (leafOf m), ∀ x ∈ t.subtrees,
      ∃ k, k ∈ hashmapF.keys m ∧ x = .node k (hashmapF.get m k) .null .null := by
  intro t ht x hx
  obtain ⟨k, hk, rfl⟩ := List.mem_map.mp ht
  simp only [leafOf, HuffmanNode.subtrees, List.append_nil, List.mem_singleton] at hx
  exact ⟨k, hk, hx⟩

theorem HuffmanNode.Exact.of_subtree {t : HuffmanNode} (h : t.Exact) :
    ∀ x ∈ t.subtrees, x.Exact := by
  induction t with
  | null => exact absurd h (by simp [HuffmanNode.Exact])
  | node c n z o ihz iho =>
    intro x hx
    simp only [HuffmanNode.subtrees, List.mem_cons, List.mem_append] at hx
    rcases hx with rfl | hx | hx
    · exact h
    · rcases exact_cases h with ⟨rfl, _⟩ | ⟨_, _, hz, _⟩
      · simp [HuffmanNode.subtrees] at hx
      · exact ihz hz x hx
    · rcases exact_cases h with ⟨_, rfl⟩ | ⟨_, _, _, ho⟩
      · simp [HuffmanNode.subtrees] at hx
      · exact iho ho x hx

/-- C15, as the code has it. For every frequency table that is not empty and
has no key `NOT_A_CHAR`, every node of the tree `buildEncodingTree` returns is
either a leaf without children that carries a key of the table (with its count),
or a node that carries `NOT_A_CHAR`, has two children, neither of them `nullptr`,
and the `int` sum of their counts as its count; when the keys are unique, no
count is negative and the counts sum to less than 2^31, that count is the sum
of the counts of the two children. -/
theorem full_tree_invariant (H : HeapAlg) (hH : H.Lawful) (m : hashmapF) (hne : m ≠ [])
    (hnac : NOT_A_CHAR ∉ hashmapF.keys m) :
    ∃ r, buildEncodingTree H m = some r ∧
      (∀ x ∈ r.subtrees,
        (∃ k, k ∈ hashmapF.keys m ∧ k ≠ NOT_A_CHAR ∧
          x = .node k (hashmapF.get m k) .null .null) ∨
        (∃ n zero one, x = .node NOT_A_CHAR n zero one ∧ zero ≠ .null ∧ one ≠ .null ∧
          n = toInt32 (zero.count + one.count))) ∧
      ((hashmapF.keys m).Nodup → (∀ e ∈ m, 0 ≤ e.2) → (m.map Prod.snd).sum < 2147483648 →
        ∀ x ∈ r.subtrees,
          (∃ k, k ∈ hashmapF.keys m ∧ k ≠ NOT_A_CHAR ∧
            x = .node k (hashmapF.get m k) .null .null) ∨
          (∃ n zero one, x = .node NOT_A_CHAR n zero one ∧ zero ≠ .null ∧ one ≠ .null ∧
            n = zero.count + one.count)) := by
  obtain ⟨r, hr, hmerged⟩ := buildEncodingTree_merged hH m hne
  have hall := hmerged.forall_subtrees
    (fun x => (∃ k, k ∈ hashmapF.keys m ∧ k ≠ NOT_A_CHAR ∧
        x = .node k (hashmapF.get m k) .null .null) ∨
      (∃ n zero one, x = .node NOT_A_CHAR n zero one ∧ zero ≠ .null ∧ one ≠ .null ∧
        n = toInt32 (zero.count + one.count)))
    (fun a b ha hb _ => Or.inr ⟨_, a, b, rfl, ha, hb, rfl⟩)
    (seed_ne_null m)
    (by
      intro t ht x hx
      obtain ⟨k, hk, rfl⟩ := seed_subtrees m t ht x hx
      exact Or.inl ⟨k, hk, fun h => hnac (h ▸ hk), rfl⟩)
  refine ⟨r, hr, hall, ?_⟩
  intro hm hpos hsum x hx
  have hexact : r.Exact := hmerged.exact (seed_exact m) (seed_nonneg m hm hpos)
    (by rw [seed_counts m hm]; exact hsum)
  rcases hall x hx with hleaf | ⟨n, z, o, rfl, hz, ho, _⟩
  · exact Or.inl hleaf
  · rcases exact_cases (hexact.of_subtree _ hx) with ⟨hz0, _⟩ | ⟨_, hn, _, _⟩
    · exact absurd hz0 hz
    · exact Or.inr ⟨n, z, o, rfl, hz, ho, hn⟩

theorem full_tree_invariant_witness :
    ∃ r, buildEncodingTree sortingHeap [(97, 2), (98, 1), (256, 1)] = some r ∧
      (∀ x ∈ r.subtrees,
        (∃ k, k ∈ hashmapF.keys [(97, 2), (98, 1), (256, 1)] ∧ k ≠ NOT_A_CHAR ∧
          x = .node k (hashmapF.get [(97, 2), (98, 1), (256, 1)] k) .null .null) ∨
        (∃ n zero one, x = .node NOT_A_CHAR n zero one ∧ zero ≠ .null ∧ one ≠ .null ∧
          n = toInt32 (zero.count + one.count))) ∧
      ((hashmapF.keys [(97, 2), (98, 1), (256, 1)]).Nodup →
        (∀ e ∈ ([(97, 2), (98, 1), (256, 1)] : hashmapF), 0 ≤ e.2) →
        (([(97, 2), (98, 1), (256, 1)] : hashmapF).map Prod.snd).sum < 2147483648 →
        ∀ x ∈ r.subtrees,
          (∃ k, k ∈ hashmapF.keys [(97, 2), (98, 1), (256, 1)] ∧ k ≠ NOT_A_CHAR ∧
            x = .node k (hashmapF.get [(97, 2), (98, 1), (256, 1)] k) .null .null) ∨
          (∃ n zero one, x = .node NOT_A_CHAR n zero one ∧ zero ≠ .null ∧ one ≠ .null ∧
            n = zero.count + one.count)) :=
  full_tree_invariant sortingHeap sortingHeap_lawful [(97, 2), (98, 1), (256, 1)]
    (by decide) (by decide)

/-- C15 as stated fails when a sum of counts leaves the range of `int`: on the
table 97:2147483647, 98:5, EOF:1 the first merge step makes a node of count 6
over EOF and 98, and the second stores 6 + 2147483647 in an `int`: the root has
the count -2147483643, which is not the sum 2147483653 of the counts of its
children. -/
theorem full_tree_invariant_counterexample :
    buildEncodingTree sortingHeap [(97, 2147483647), (98, 5), (256, 1)] =
      some (.node NOT_A_CHAR (-2147483643)
        (.node NOT_A_CHAR 6 (.node 256 1 .null .null) (.node 98 5 .null .null))
        (.node 97 2147483647 .null .null)) ∧
    HuffmanNode.node NOT_A_CHAR (-2147483643)
        (.node NOT_A_CHAR 6 (.node 256 1 .null .null) (.node 98 5 .null .null))
        (.node 97 2147483647 .null .null) ∈
      (HuffmanNode.node NOT_A_CHAR (-2147483643)
        (.node NOT_A_CHAR 6 (.node 256 1 .null .null) (.node 98 5 .null .null))
        (.node 97 2147483647 .null .null)).subtrees ∧
    (HuffmanNode.node NOT_A_CHAR 6 (.node 256 1 .null .null) (.node 98 5 .null .null)).count +
      (HuffmanNode.node 97 2147483647 .null .null).count = 2147483653 ∧
    (-2147483643 : Int) ≠ 2147483653 := by
  decide

theorem mergeLoop_step (H : HeapAlg) (fuel : Nat) (pq : priority_queue)
    (first second : HuffmanNode) (hlen : 1 < pq.length)
    (h1 : priority_queue.top pq = some first)
    (h2 : priority_queue.top (priority_queue.pop H pq) = some second) :
    mergeLoop H (fuel + 1) pq =
      mergeLoop H fuel (priority_queue.push H
        (priority_queue.pop H (priority_queue.pop H pq))
        (.node NOT_A_CHAR (toInt32 (first.count + second.count)) first second)) := by
  rw [mergeLoop]
  simp only [priority_queue.size, hlen, if_true, h1, h2]

/-- C16 (merge order). On a lawful queue, an iteration of the merge loop takes
out a node of least count, then a node of least count among the others, and
goes on with the queue in which they are replaced by a new node with the first
as zero child and the second as one child. In the tree returned for a table
that is not empty, every node with children has a zero child whose count is at
most the count of its one child. -/
theorem merge_order (H : HeapAlg) (hH : H.Lawful) :
    (∀ (fuel : Nat) (pq : priority_queue), IsHeap compare pq → 1 < pq.length →
      ∃ first second rest,
        priority_queue.top pq = some first ∧
        priority_queue.top (priority_queue.pop H pq) = some second ∧
        pq.Perm (first :: second :: rest) ∧
        first.count ≤ second.count ∧ (∀ x ∈ rest, second.count ≤ x.count) ∧
        mergeLoop H (fuel + 1) pq =
          mergeLoop H fuel (priority_queue.push H
            (priority_queue.pop H (priority_queue.pop H pq))
            (.node NOT_A_CHAR (toInt32 (first.count + second.count)) first second)) ∧
        IsHeap compare (priority_queue.push H
          (priority_queue.pop H (priority_queue.pop H pq))
          (.node NOT_A_CHAR (toInt32 (first.count + second.count)) first second)) ∧
        (priority_queue.push H (priority_queue.pop H (priority_queue.pop H pq))
          (.node NOT_A_CHAR (toInt32 (first.count + second.count)) first second)).Perm
          (.node NOT_A_CHAR (toInt32 (first.count + second.count)) first second :: rest)) ∧
    (∀ m : hashmapF, m ≠ [] →
      ∃ r, buildEncodingTree H m = some r ∧
        ∀ c n zero one, HuffmanNode.node c n zero one ∈ r.subtrees →
          (zero.isNull && one.isNull) = false → zero.count ≤ one.count) := by
  constructor
  · intro fuel pq hpq hlen
    obtain ⟨a, b, rest, ha, hb, hperm, hab, hrest, hheap, hperm'⟩ :=
      mergeStep_spec hH pq hpq hlen
    exact ⟨a, b, rest, ha, hb, hperm, hab, hrest, mergeLoop_step H fuel pq a b hlen ha hb,
      hheap, hperm'⟩
  · intro m hne
    obtain ⟨r, hr, hmerged⟩ := buildEncodingTree_merged hH m hne
    refine ⟨r, hr, ?_⟩
    have key := hmerged.forall_subtrees
      (fun x => ∀ c n zero one, x = HuffmanNode.node c n zero one →
        (zero.isNull && one.isNull) = false → zero.count ≤ one.count)
      (by
        intro a b _ _ hab c n zero one heq _
        cases heq
        exact hab)
      (seed_ne_null m)
      (by
        intro t ht x hx c n zero one heq hinner
        obtain ⟨k, _, rfl⟩ := seed_subtrees m t ht x hx
        cases heq
        simp [HuffmanNode.isNull] at hinner)
    intro c n zero one hmem hinner
    exact key _ hmem c n zero one rfl hinner

theorem merge_order_witness :
    (∃ first second rest,
        priority_queue.top [.node 98 1 .null .null, .node 256 1 .null .null,
          .node 97 2 .null .null] = some first ∧
        priority_queue.top (priority_queue.pop sortingHeap
          [.node 98 1 .null .null, .node 256 1 .null .null, .node 97 2 .null .null]) =
          some second ∧
        List.Perm [.node 98 1 .null .null, .node 256 1 .null .null, .node 97 2 .null .null]
          (first :: second :: rest) ∧
        first.count ≤ second.count ∧ (∀ x ∈ rest, second.count ≤ x.count) ∧
        mergeLoop sortingHeap (1 + 1)
            [.node 98 1 .null .null, .node 256 1 .null .null, .node 97 2 .null .null] =
          mergeLoop sortingHeap 1 (priority_queue.push sortingHeap
            (priority_queue.pop sortingHeap (priority_queue.pop sortingHeap
              [.node 98 1 .null .null, .node 256 1 .null .null, .node 97 2 .null .null]))
            (.node NOT_A_CHAR (toInt32 (first.count + second.count)) first second)) ∧
        IsHeap compare (priority_queue.push sortingHeap
          (priority_queue.pop sortingHeap (priority_queue.pop sortingHeap
            [.node 98 1 .null .null, .node 256 1 .null .null, .node 97 2 .null .null]))
          (.node NOT_A_CHAR (toInt32 (first.count + second.count)) first second)) ∧
        (priority_queue.push sortingHeap
          (priority_queue.pop sortingHeap (priority_queue.pop sortingHeap
            [.node 98 1 .null .null, .node 256 1 .null .null, .node 97 2 .null .null]))
          (.node NOT_A_CHAR (toInt32 (first.count + second.count)) first second)).Perm
          (.node NOT_A_CHAR (toInt32 (first.count + second.count)) first second :: rest)) ∧
    (∃ r, buildEncodingTree sortingHeap [(97, 2), (98, 1), (256, 1)] = some r ∧
        ∀ c n zero one, HuffmanNode.node c n zero one ∈ r.subtrees →
          (zero.isNull && one.isNull) = false → zero.count ≤ one.count) :=
  ⟨(merge_order sortingHeap sortingHeap_lawful).1 1
      [.node 98 1 .null .null, .node 256 1 .null .null, .node 97 2 .null .null]
      (IsHeap.of_sorted (by decide)) (by decide),
    (merge_order sortingHeap sortingHeap_lawful).2 [(97, 2), (98, 1), (256, 1)] (by decide)⟩


/-! ## The code table of a tree of the data model -/

theorem HuffmanNode.Full.shape {t : HuffmanNode} (h : t.Full) : t.FullShape := by
  induction t with
  | null => exact absurd h (by simp [HuffmanNode.Full])
  | node c n z o ihz iho =>
    unfold HuffmanNode.FullShape
    rcases full_cases h with hl | ⟨_, hc, _, hz, ho⟩
    · exact Or.inl hl
    · exact Or.inr ⟨hc, ihz hz, iho ho⟩

theorem shape_cases {c n : Int} {z o : HuffmanNode}
    (h : (HuffmanNode.node c n z o).FullShape) :
    (z = .null ∧ o = .null) ∨
      ((z.isNull && o.isNull) = false ∧ c = NOT_A_CHAR ∧ z.FullShape ∧ o.FullShape) := by
  unfold HuffmanNode.FullShape at h
  rcases h with h | ⟨h1, h2, h3⟩
  · exact Or.inl h
  · refine Or.inr ⟨?_, h1, h2, h3⟩
    cases z with
    | null => exact absurd h2 (by simp [HuffmanNode.FullShape])
    | node _ _ _ _ => simp [HuffmanNode.isNull]

/-- The traversal on a tree of the data model whose leaves carry pairwise
distinct symbols, none of them `NOT_A_CHAR` and none already in the table: the
root-to-leaf paths are added to the table, each after the string accumulated so
far. The counts play no part. -/
theorem _buildEncodingMap_shape (t : HuffmanNode) (hshape : t.FullShape) :
    ∀ (em : hashmapE) (str : List Char),
      (em.map Prod.fst ++ t.leaves.map Prod.fst).Nodup →
      (∀ e ∈ t.leaves, e.1 ≠ NOT_A_CHAR) →
      _buildEncodingMap t em str =
        some (em ++ t.paths.map (fun e => (e.1, str ++ e.2))) := by
  induction t with
  | null => exact absurd hshape (by simp [HuffmanNode.FullShape])
  | node c n z o ihz iho =>
    intro em str hnd hnac
    rcases shape_cases hshape with ⟨rfl, rfl⟩ | ⟨hl, rfl, hz, ho⟩
    · have hc : c ≠ NOT_A_CHAR := hnac (c, n) (by simp [HuffmanNode.leaves, HuffmanNode.isNull])
      have hnew : c ∉ em.map Prod.fst := by
        have := hnd
        simp only [HuffmanNode.leaves, HuffmanNode.isNull, Bool.and_self, if_true,
          List.map_cons, List.map_nil] at this
        intro hmem
        exact (List.nodup_append.mp this).2.2 hmem (by simp)
      simp [_buildEncodingMap, hc, hashmapE.assign_new em c str hnew, HuffmanNode.paths,
        HuffmanNode.isNull]
    · have hleaves : (HuffmanNode.node NOT_A_CHAR n z o).leaves = z.leaves ++ o.leaves := by
        simp [HuffmanNode.leaves, hl]
      rw [hleaves] at hnd hnac
      have hnd' : (em.map Prod.fst ++ (z.leaves.map Prod.fst ++ o.leaves.map Prod.fst)).Nodup := by
        simpa using hnd
      have hndz : (em.map Prod.fst ++ z.leaves.map Prod.fst).Nodup := by
        rw [← List.append_assoc] at hnd'
        exact (List.nodup_append.mp hnd').1
      have hz' := ihz hz em (str ++ ['0']) hndz (fun e he => hnac e (by simp [he]))
      have hndo : ((em ++ z.paths.map (fun e => (e.1, (str ++ ['0']) ++ e.2))).map Prod.fst ++
          o.leaves.map Prod.fst).Nodup := by
        have : (z.paths.map (fun e => (e.1, (str ++ ['0']) ++ e.2))).map Prod.fst =
            z.leaves.map Prod.fst := by
          rw [← paths_keys]
          simp [List.map_map, Function.comp_def]
        rw [List.map_append, this, List.append_assoc]
        exact hnd'
      have ho' := iho ho _ (str ++ ['1']) hndo (fun e he => hnac e (by simp [he]))
      rw [_buildEncodingMap]
      simp only [ne_eq, not_true_eq_false, if_false, hz', List.dropLast_concat, ho']
      simp [HuffmanNode.paths, hl, List.map_map, Function.comp_def]

/-- C17 (codes are root-to-leaf paths). For every tree of the data model (a node
is a leaf without children, or carries `NOT_A_CHAR` and has two children) whose
leaves carry pairwise distinct symbols other than `NOT_A_CHAR`: `buildEncodingMap`
returns a table with one entry for each leaf, so as many entries as leaves, with
the leaf symbols as keys; the code stored for a symbol is the path from the root
to its leaf, `'0'` for a step to the zero child, `'1'` for a step to the one
child. -/
theorem codes_are_paths (t : HuffmanNode) (hshape : t.FullShape)
    (hnd : (t.leaves.map Prod.fst).Nodup) (hnac : ∀ e ∈ t.leaves, e.1 ≠ NOT_A_CHAR) :
    ∃ em, buildEncodingMap t = some em ∧ em.length = t.leaves.length ∧
      em.map Prod.fst = t.leaves.map Prod.fst ∧
      ∀ x p, hashmapE.find em x = some p ↔ (x, p) ∈ t.paths := by
  have hne : t ≠ .null := by
    rintro rfl
    simp [HuffmanNode.FullShape] at hshape
  have hem : buildEncodingMap t = some t.paths := by
    have := _buildEncodingMap_shape t hshape [] [] (by simpa using hnd) hnac
    simpa [buildEncodingMap, hne] using this
  have hkeys := paths_keys t
  refine ⟨t.paths, hem, ?_, hkeys, ?_⟩
  · simpa using congrArg List.length hkeys
  · intro x p
    constructor
    · exact hashmapE.mem_of_find
    · exact hashmapE.find_eq_some_of_mem (hkeys ▸ hnd)

theorem codes_are_paths_witness :
    ∃ em, buildEncodingMap
        (.node NOT_A_CHAR 4 (.node 97 2 .null .null)
          (.node NOT_A_CHAR 2 (.node 98 1 .null .null) (.node 256 1 .null .null))) = some em ∧
      em.length = (HuffmanNode.node NOT_A_CHAR 4 (.node 97 2 .null .null)
          (.node NOT_A_CHAR 2 (.node 98 1 .null .null) (.node 256 1 .null .null))).leaves.length ∧
      em.map Prod.fst = (HuffmanNode.node NOT_A_CHAR 4 (.node 97 2 .null .null)
          (.node NOT_A_CHAR 2 (.node 98 1 .null .null)
            (.node 256 1 .null .null))).leaves.map Prod.fst ∧
      ∀ x p, hashmapE.find em x = some p ↔
        (x, p) ∈ (HuffmanNode.node NOT_A_CHAR 4 (.node 97 2 .null .null)
          (.node NOT_A_CHAR 2 (.node 98 1 .null .null) (.node 256 1 .null .null))).paths :=
  codes_are_paths
    (.node NOT_A_CHAR 4 (.node 97 2 .null .null)
      (.node NOT_A_CHAR 2 (.node 98 1 .null .null) (.node 256 1 .null .null)))
    (by simp [HuffmanNode.FullShape]) (by decide) (by decide)


/-! ## Null children in `decode`, absent codes in `encode` -/

theorem decodeLoop_leaf (root : HuffmanNode) (k v : Int) (b : Bool) (rest : List Bool)
    (acc : List Int) :
    decodeLoop root (b :: rest) (.node k v .null .null) acc = none := by
  rw [decodeLoop_node]
  cases b <;> rfl

theorem buildEncodingTree_single {H : HeapAlg} (hH : H.Lawful) (k v : Int) :
    buildEncodingTree H [(k, v)] = some (.node k v .null .null) := by
  obtain ⟨r, hr, hmerged⟩ := buildEncodingTree_merged hH [(k, v)] (by simp)
  have hseed : (hashmapF.keys [(k, v)]).map (leafOf [(k, v)]) = [.node k v .null .null] := by
    simp [hashmapF.keys, leafOf, hashmapF.get]
  rw [hseed] at hmerged
  rw [hr, hmerged.single]

theorem cursorMoves_node (root : HuffmanNode) (b : Bool) (input : List Bool)
    (c n : Int) (z o : HuffmanNode) :
    cursorMoves root (b :: input) (.node c n z o) =
      match (if b then o else z) with
      | .null => [.null]
      | .node character k z' o' =>
        if character = PSEUDO_EOF then [.node character k z' o']
        else if character ≠ NOT_A_CHAR then
          .node character k z' o' :: cursorMoves root input root
        else .node character k z' o' :: cursorMoves root input (.node character k z' o') := by
  cases b
  · cases z <;> simp [cursorMoves, readBit]
  · cases o <;> simp [cursorMoves, readBit]

/-- When the loop of `decode` returns, the cursor was never moved to `nullptr`. -/
theorem cursorMoves_of_decodeLoop (root : HuffmanNode) :
    ∀ (B : List Bool) (cursor : HuffmanNode) (acc : List Int) (run : DecodeRun),
      decodeLoop root B cursor acc = some run → HuffmanNode.null ∉ cursorMoves root B cursor := by
  intro B
  induction B with
  | nil =>
    intro cursor acc run _
    simp [cursorMoves]
  | cons b B ih =>
    intro cursor acc run h
    cases cursor with
    | null => simp [cursorMoves]
    | node c n z o =>
      rw [decodeLoop_node] at h
      rw [cursorMoves_node]
      cases hnext : (if b then o else z) with
      | null => simp [hnext] at h
      | node ch k z' o' =>
        simp only [hnext] at h
        by_cases h1 : ch = PSEUDO_EOF
        · simp [h1]
        · by_cases h2 : ch = NOT_A_CHAR
          · simp only [h1, h2, if_false, ne_eq, not_true_eq_false] at h
            have hmoves := ih _ _ _ h
            have hne : NOT_A_CHAR ≠ PSEUDO_EOF := PSEUDO_EOF_ne_NOT_A_CHAR.symm
            subst h2
            simp only [hne, ne_eq, not_true_eq_false, if_false]
            intro hmem
            rcases List.mem_cons.mp hmem with hh | hh
            · cases hh
            · exact hmoves hh
          · simp only [h1, h2, if_false, ne_eq, not_false_eq_true, if_true] at h
            have hmoves := ih _ _ _ h
            simp only [h1, h2, if_false, ne_eq, not_false_eq_true, if_true]
            intro hmem
            rcases List.mem_cons.mp hmem with hh | hh
            · cases hh
            · exact hmoves hh

/-- C18 (the decoder never follows a missing child). For the tree of a table
with unique keys, at least two entries and no key `NOT_A_CHAR`, and every bit
sequence: the loop of `decode` returns, and `nullptr` is not among the values
the cursor takes. For a table with one entry the tree is a single leaf, both of
whose children are `nullptr`; whatever the first bit is, it moves the cursor to
`nullptr`, and `decode` does not return. -/
theorem decode_null_child (H : HeapAlg) (hH : H.Lawful) :
    (∀ m : hashmapF, (hashmapF.keys m).Nodup → 2 ≤ m.length →
      NOT_A_CHAR ∉ hashmapF.keys m →
      ∃ r, buildEncodingTree H m = some r ∧
        ∀ B, HuffmanNode.null ∉ cursorMoves r B r ∧
          ∃ run, decodeLoop r B r [] = some run ∧
            decode B r = some (run.decodedString.map intToChar)) ∧
    (∀ k v : Int, buildEncodingTree H [(k, v)] = some (.node k v .null .null) ∧
      ∀ (b : Bool) (rest : List Bool),
        cursorMoves (.node k v .null .null) (b :: rest) (.node k v .null .null) = [.null] ∧
        decodeLoop (.node k v .null .null) (b :: rest) (.node k v .null .null) [] = none ∧
        decode (b :: rest) (.node k v .null .null) = none) := by
  constructor
  · intro m hm hlen hnac
    have hne : m ≠ [] := by
      rintro rfl
      simp at hlen
    obtain ⟨r, hr, _, hfull, hnd, hnac', _, hinner⟩ := buildEncodingMap_table hH m hne hm hnac
    refine ⟨r, hr, ?_⟩
    intro B
    obtain ⟨run, _, hrun, _⟩ := decodeLoop_account r hfull (hinner hlen) hnd hnac' B []
    exact ⟨cursorMoves_of_decodeLoop r B r [] run hrun, run, hrun, by
      simp [decode, decodeSymbols, hrun]⟩
  · intro k v
    refine ⟨buildEncodingTree_single hH k v, ?_⟩
    intro b rest
    have h := decodeLoop_leaf (.node k v .null .null) k v b rest []
    refine ⟨?_, h, by simp [decode, decodeSymbols, h]⟩
    rw [cursorMoves_node]
    cases b <;> rfl

theorem decode_null_child_witness :
    (∃ r, buildEncodingTree sortingHeap [(97, 2), (98, 1), (256, 1)] = some r ∧
        ∀ B, HuffmanNode.null ∉ cursorMoves r B r ∧
          ∃ run, decodeLoop r B r [] = some run ∧
            decode B r = some (run.decodedString.map intToChar)) ∧
    (buildEncodingTree sortingHeap [(256, 1)] = some (.node 256 1 .null .null) ∧
      ∀ (b : Bool) (rest : List Bool),
        cursorMoves (.node 256 1 .null .null) (b :: rest) (.node 256 1 .null .null) = [.null] ∧
        decodeLoop (.node 256 1 .null .null) (b :: rest) (.node 256 1 .null .null) [] = none ∧
        decode (b :: rest) (.node 256 1 .null .null) = none) :=
  ⟨(decode_null_child sortingHeap sortingHeap_lawful).1 [(97, 2), (98, 1), (256, 1)]
      (by decide) (by decide) (by decide),
    (decode_null_child sortingHeap sortingHeap_lawful).2 256 1⟩

theorem flatMap_index_filter (em : hashmapE) (S : List Byte) :
    (S.filter (fun c => (hashmapE.find em (charToInt c)).isSome)).flatMap
        (fun c => hashmapE.index em (charToInt c)) =
      S.flatMap (fun c => hashmapE.index em (charToInt c)) := by
  induction S with
  | nil => rfl
  | cons c S ih =>
    cases hc : hashmapE.find em (charToInt c) with
    | none =>
      have h0 : hashmapE.index em (charToInt c) = [] := by simp [hashmapE.index, hc]
      simp only [List.filter_cons, hc, Option.isSome_none, Bool.false_eq_true, if_false,
        List.flatMap_cons, h0, List.nil_append]
      exact ih
    | some p =>
      simp only [List.filter_cons, hc, Option.isSome_some, if_true, List.flatMap_cons]
      rw [ih]

/-- C19, as the code has it. For every byte sequence and every code table
`encode` returns (it has no failing path): the string is the stored codes of the
symbols in order, the empty string standing for a symbol without an entry,
followed by the sentinel's code or by nothing when the sentinel has no entry; it
is the string `encode` returns for the sequence with the symbols without entry
removed; `size`, an `int`, is its length reduced to 32 bits, so its length when
this is below 2^31. -/
theorem encode_missing (input : List Byte) (em : hashmapE) (makeFile : Bool) :
    (encode input em makeFile).binary =
      input.flatMap (fun c => (hashmapE.find em (charToInt c)).getD []) ++
        (hashmapE.find em PSEUDO_EOF).getD [] ∧
    (∀ c : Byte, hashmapE.find em (charToInt c) = none →
      hashmapE.index em (charToInt c) = []) ∧
    (hashmapE.find em PSEUDO_EOF = none → hashmapE.index em PSEUDO_EOF = []) ∧
    (encode input em makeFile).binary =
      (encode (input.filter (fun c => (hashmapE.find em (charToInt c)).isSome))
        em makeFile).binary ∧
    (encode input em makeFile).size =
      toInt32 ((encode input em makeFile).binary.length : Int) ∧
    (((encode input em makeFile).binary.length : Int) < 2147483648 →
      (encode input em makeFile).size = ((encode input em makeFile).binary.length : Int)) := by
  refine ⟨?_, ?_, ?_, ?_, rfl, ?_⟩
  · rw [encode_binary]
    rfl
  · intro c hc
    simp [hashmapE.index, hc]
  · intro h
    simp [hashmapE.index, h]
  · rw [encode_binary, encode_binary, flatMap_index_filter]
  · intro hlt
    rw [encode_size]
    exact toInt32_of_range (by omega) hlt

/-- C19 as stated fails when the string has 2^31 characters or more: `size` is
an `int` and takes the length reduced to 32 bits. For the byte 98 followed by
2147483648 copies of the byte 97 and the table 97:"1" (no entry for 98 or the
sentinel) the string has 2147483648 characters and `size` is -2147483648. -/
theorem encode_missing_counterexample :
    hashmapE.find [(97, ['1'])] (charToInt 98) = none ∧
    hashmapE.find [(97, ['1'])] PSEUDO_EOF = none ∧
    ((encode (98 :: List.replicate 2147483648 (97 : Byte)) [(97, ['1'])]
      true).binary.length : Int) = 2147483648 ∧
    (encode (98 :: List.replicate 2147483648 (97 : Byte)) [(97, ['1'])] true).size =
      -2147483648 := by
  have hlen : (encode (98 :: List.replicate 2147483648 (97 : Byte)) [(97, ['1'])]
      true).binary.length = 2147483648 := by
    rw [encode_binary, List.flatMap_cons, List.length_append, List.length_append,
      flatMap_replicate_length]
    decide
  have hsize := encode_size (98 :: List.replicate 2147483648 (97 : Byte)) [(97, ['1'])] true
  rw [hlen] at hsize
  refine ⟨by decide, by decide, ?_, ?_⟩
  · rw [hlen]
    decide
  · rw [hsize]
    decide
end Huffman
